import Mathlib

/-!
Verification of the eternity-cluster-archive server core against its
natural-language specification.  The definitions below are a shallow
embedding of the JavaScript source (src/ustar.js and the main server
module): JS numbers used as timestamps are modelled as `Int` (the
`JsTime` type additionally models `undefined` and a failed date parse,
i.e. `NaN`), byte buffers are `List Nat`, insertion-ordered `Map`s are
association lists, and code that can throw returns `Except`.
-/

set_option autoImplicit false

namespace Archive

/-- A JS number-or-undefined timestamp value as stored in the
`createdAtMs` / `modifiedAtMs` fields: either `undefined`, `NaN`
(a failed date parse), or a finite number of milliseconds. -/
inductive JsTime where
  | undef
  | nan
  | val (ms : Int)
deriving Repr, DecidableEq

/-- The part of an `fs.Stats` object the server reads: byte size and
modification time in milliseconds. -/
structure Stat where
  size : Nat
  mtimeMs : Int
deriving Repr, DecidableEq

/-- The part of the per-instance `instance.json` descriptor the code
reads: the `instance.name` (title) and `instance.id` fields. -/
structure InstConfig where
  instanceName : String
  instanceId : Int
deriving Repr, DecidableEq

/-- Aggregated metadata fields carried on container nodes (`Root`,
`Dir` and subclasses).  All are initialised as in the JS class bodies:
counts to `0`, timestamps to `undefined`. -/
structure MetaData where
  foldersCount : Nat := 0
  filesCount : Nat := 0
  totalSize : Nat := 0
  createdAtMs : JsTime := .undef
  modifiedAtMs : JsTime := .undef
deriving Repr, DecidableEq

/-- The default-initialised metadata of a freshly constructed node. -/
def MetaData.init : MetaData := {}

mutual
/-- The tagged node variants of the tree: `Root`, `Dir`, `InstancesDir`,
`Instance`, `SavesDir`, `File`, `Save`.  Parent back-references are not
modelled (no claim reads them); an Instance's `title`/`id` are derived
from `config` exactly as in the JS constructor, so only `config` is
stored. -/
inductive JNode where
  | root (meta : MetaData) (entries : EntryList)
  | dir (name realPath : String) (meta : MetaData) (entries : EntryList)
  | instancesDir (name realPath : String) (meta : MetaData) (entries : EntryList)
  | inst (name realPath : String) (config : InstConfig) (meta : MetaData) (entries : EntryList)
  | savesDir (name realPath : String) (meta : MetaData) (entries : EntryList)
  | file (name realPath : String) (stat : Stat)
  | save (name realPath : String) (stat : Stat) (createdAtMs : JsTime)

/-- Insertion-ordered mapping from child name to child node (the JS
`Map` held in `entries`). -/
inductive EntryList where
  | nil
  | cons (name : String) (node : JNode) (rest : EntryList)
end

namespace EntryList

/-- `entries.values()` as a list, in insertion order. -/
def values : EntryList → List JNode
  | .nil => []
  | .cons _ n rest => n :: values rest

/-- The keys of the mapping, in insertion order. -/
def keys : EntryList → List String
  | .nil => []
  | .cons k _ rest => k :: keys rest

/-- `entries.get(k)`: the first entry with the given name. -/
def get? : EntryList → String → Option JNode
  | .nil, _ => none
  | .cons k n rest, key => if k = key then some n else get? rest key

/-- `entries.set(k, v)` on a JS `Map`: replaces the value in place when
the key is present (keeping its position), appends otherwise. -/
def setEntry : EntryList → String → JNode → EntryList
  | .nil, key, v => .cons key v .nil
  | .cons k n rest, key, v =>
    if k = key then .cons key v rest else .cons k n (setEntry rest key v)

/-- Does the mapping contain the given key? -/
def hasKey : EntryList → String → Bool
  | .nil, _ => false
  | .cons k _ rest, key => k = key || hasKey rest key

end EntryList

/-- Structural induction over the entry-list spine (the automatic
eliminator of the mutual inductive has multiple motives, so the
`induction` tactic cannot use it directly). -/
def entryListInd (P : EntryList → Prop) (hnil : P .nil)
    (hcons : ∀ k n rest, P rest → P (.cons k n rest)) : ∀ es, P es
  | .nil => hnil
  | .cons k n rest => hcons k n rest (entryListInd P hnil hcons rest)

mutual
/-- Mutual structural induction over nodes and entry lists. -/
def jnodeInd (P : JNode → Prop) (Q : EntryList → Prop)
    (hroot : ∀ m es, Q es → P (.root m es))
    (hdir : ∀ n rp m es, Q es → P (.dir n rp m es))
    (hidir : ∀ n rp m es, Q es → P (.instancesDir n rp m es))
    (hinst : ∀ n rp cfg m es, Q es → P (.inst n rp cfg m es))
    (hsdir : ∀ n rp m es, Q es → P (.savesDir n rp m es))
    (hfile : ∀ n rp st, P (.file n rp st))
    (hsave : ∀ n rp st c, P (.save n rp st c))
    (hnil : Q .nil)
    (hcons : ∀ k c rest, P c → Q rest → Q (.cons k c rest)) : ∀ n, P n
  | .root m es => hroot m es (entriesInd P Q hroot hdir hidir hinst hsdir hfile hsave hnil hcons es)
  | .dir n rp m es => hdir n rp m es (entriesInd P Q hroot hdir hidir hinst hsdir hfile hsave hnil hcons es)
  | .instancesDir n rp m es => hidir n rp m es (entriesInd P Q hroot hdir hidir hinst hsdir hfile hsave hnil hcons es)
  | .inst n rp cfg m es => hinst n rp cfg m es (entriesInd P Q hroot hdir hidir hinst hsdir hfile hsave hnil hcons es)
  | .savesDir n rp m es => hsdir n rp m es (entriesInd P Q hroot hdir hidir hinst hsdir hfile hsave hnil hcons es)
  | .file n rp st => hfile n rp st
  | .save n rp st c => hsave n rp st c

def entriesInd (P : JNode → Prop) (Q : EntryList → Prop)
    (hroot : ∀ m es, Q es → P (.root m es))
    (hdir : ∀ n rp m es, Q es → P (.dir n rp m es))
    (hidir : ∀ n rp m es, Q es → P (.instancesDir n rp m es))
    (hinst : ∀ n rp cfg m es, Q es → P (.inst n rp cfg m es))
    (hsdir : ∀ n rp m es, Q es → P (.savesDir n rp m es))
    (hfile : ∀ n rp st, P (.file n rp st))
    (hsave : ∀ n rp st c, P (.save n rp st c))
    (hnil : Q .nil)
    (hcons : ∀ k c rest, P c → Q rest → Q (.cons k c rest)) : ∀ es, Q es
  | .nil => hnil
  | .cons k c rest =>
    hcons k c rest (jnodeInd P Q hroot hdir hidir hinst hsdir hfile hsave hnil hcons c)
      (entriesInd P Q hroot hdir hidir hinst hsdir hfile hsave hnil hcons rest)
end

/-- `node instanceof Dir || node instanceof Root` (the walker's
container test). -/
def isContainer : JNode → Bool
  | .root .. => true
  | .dir .. => true
  | .instancesDir .. => true
  | .inst .. => true
  | .savesDir .. => true
  | .file .. => false
  | .save .. => false

/-- `node instanceof Dir` (true for `Dir` and all its subclasses,
false for `Root` and file-likes). -/
def isDirLike : JNode → Bool
  | .dir .. => true
  | .instancesDir .. => true
  | .inst .. => true
  | .savesDir .. => true
  | _ => false

/-- `node instanceof File` (true for `File` and `Save`). -/
def isFileLike : JNode → Bool
  | .file .. => true
  | .save .. => true
  | _ => false

/-- `node instanceof Instance`. -/
def isInstance : JNode → Bool
  | .inst .. => true
  | _ => false

/-- The node's `name` (the `Root` class has none; it is never read). -/
def nameOf : JNode → String
  | .root .. => ""
  | .dir n .. => n
  | .instancesDir n .. => n
  | .inst n .. => n
  | .savesDir n .. => n
  | .file n .. => n
  | .save n .. => n

/-- The node's `realPath` (for `Root` the configured root directory;
its concrete value is environment-specific and never used in a claim). -/
def realPathOf : JNode → String
  | .root .. => ""
  | .dir _ rp .. => rp
  | .instancesDir _ rp .. => rp
  | .inst _ rp .. => rp
  | .savesDir _ rp .. => rp
  | .file _ rp .. => rp
  | .save _ rp .. => rp

/-- The aggregated metadata of a container node (leaves carry none). -/
def metaOf : JNode → MetaData
  | .root m .. => m
  | .dir _ _ m .. => m
  | .instancesDir _ _ m .. => m
  | .inst _ _ _ m .. => m
  | .savesDir _ _ m .. => m
  | _ => {}

/-- The `entries` mapping of a container, or `none` for a file-like
node (reading `.entries` of a `File` gives `undefined` in JS). -/
def nodeEntries? : JNode → Option EntryList
  | .root _ es => some es
  | .dir _ _ _ es => some es
  | .instancesDir _ _ _ es => some es
  | .inst _ _ _ _ es => some es
  | .savesDir _ _ _ es => some es
  | _ => none

/-- The `entries` mapping, empty for leaves. -/
def entriesOf (n : JNode) : EntryList := (nodeEntries? n).getD .nil

/-- The `stat` of a file-like node (`undefined` for containers). -/
def statOf? : JNode → Option Stat
  | .file _ _ st => some st
  | .save _ _ st _ => some st
  | _ => none

/-- The Instance's `config` (only meaningful on `inst` nodes). -/
def configOf : JNode → InstConfig
  | .inst _ _ cfg .. => cfg
  | _ => ⟨"", 0⟩

/-- The Instance's `title`, i.e. `config["instance.name"]`. -/
def titleOf (n : JNode) : String := (configOf n).instanceName

/-- `node.createdAtMs`: `undefined` on a `File`, the parse result on a
`Save`, the aggregated value on containers. -/
def createdOf : JNode → JsTime
  | .file .. => .undef
  | .save _ _ _ c => c
  | n => (metaOf n).createdAtMs

/-- `node.modifiedAtMs`: `stat.mtimeMs` on file-likes (assigned in the
`File` constructor), the aggregated value on containers. -/
def modifiedOf : JNode → JsTime
  | .file _ _ st => .val st.mtimeMs
  | .save _ _ st _ => .val st.mtimeMs
  | n => (metaOf n).modifiedAtMs

/-- `node.foldersCount` as read by `calculateMeta` on a child (the
field defaults to `0` on file-likes). -/
def aggFolders : JNode → Nat
  | .file .. => 0
  | .save .. => 0
  | n => (metaOf n).foldersCount

/-- `node.filesCount` as read on a child. -/
def aggFiles : JNode → Nat
  | .file .. => 0
  | .save .. => 0
  | n => (metaOf n).filesCount

/-- `node.totalSize` as read on a child after `calculateMeta` has run
on it (`calculateMeta` sets a file-like's `totalSize` to `stat.size`). -/
def aggSize : JNode → Nat
  | .file _ _ st => st.size
  | .save _ _ st _ => st.size
  | n => (metaOf n).totalSize

/-!  ## The length-validating relay (`validateLength`)

`validateLength(sourceLength, res)` returns an async generator that
forwards chunks, throwing once the running byte count exceeds the
declared length and, after the source ends, when it fell short.  The
model returns the list of chunks actually forwarded together with
`none` (normal completion) or the error message. -/

def tooLongMsg : String := "Stream too long"
def tooShortMsg : String := "Stream too short"

/-- One pass of the relay body starting from running count `read`. -/
def validateLengthGo (sourceLength : Nat) : Nat → List (List Nat) → List (List Nat) × Option String
  | read, [] => ([], if read < sourceLength then some tooShortMsg else none)
  | read, chunk :: rest =>
    let read2 := read + chunk.length
    if sourceLength < read2 then
      ([], some tooLongMsg)
    else
      let out := validateLengthGo sourceLength read2 rest
      (chunk :: out.1, out.2)

/-- The relay applied to a whole chunk sequence. -/
def validateLengthRun (sourceLength : Nat) (chunks : List (List Nat)) : List (List Nat) × Option String :=
  validateLengthGo sourceLength 0 chunks

/-- Total number of bytes in a chunk sequence. -/
def totalBytes (chunks : List (List Nat)) : Nat := (chunks.map List.length).sum

/-!  ## The USTAR encoder (src/ustar.js)

Names are handled by the JS code as UTF-8 byte buffers, so the model
works directly on byte sequences (`List Nat`).  `47` is the byte of
the `/` character and `32` of the space. -/

/-- A USTAR header with the fields of the `UstarHeader` class.  String
fields are byte sequences; numeric fields keep the JS types (`mtime`
may be negative before 1970, hence `Int`). -/
structure UstarHeader where
  name : List Nat := []
  mode : Int := 420
  uid : Int := 1000
  gid : Int := 100
  size : Int := 0
  mtime : Int := 0
  typeflag : List Nat := [48]
  linkname : List Nat := []
  uname : List Nat := [117, 115, 101, 114]
  gname : List Nat := [117, 115, 101, 114, 115]
  devmajor : Int := 0
  devminor : Int := 0
deriving Repr, DecidableEq

/-- `buf.indexOf("/", start)`: index of the first `/` byte at or after
`start`, or `none`. -/
def firstSlashFrom (bs : List Nat) (start : Nat) : Option Nat :=
  (List.range bs.length).find? (fun i => start ≤ i && bs.getD i 0 = 47)

/-- `UstarHeader.splitName`: a name of at most 100 bytes is returned
whole with an empty prefix; otherwise the name is split at the first
`/` at or after byte `length - 100`, failing when there is none or it
lies beyond byte 155. -/
def splitName (name : List Nat) : Except String (List Nat × List Nat) :=
  if name.length ≤ 100 then .ok (name, [])
  else
    match firstSlashFrom name (name.length - 100) with
    | none => .error "Encoded name is too long"
    | some i =>
      if 155 < i then .error "Encoded name is too long"
      else .ok (name.drop (i + 1), name.take i)

/-- `buf.write(bytes, offset)` / `src.copy(buf, offset)` on a buffer:
overwrites in place, truncating bytes that would run past the end of
the buffer (the `Buffer` API never grows the target). -/
def bufWrite (buf : List Nat) (offset : Nat) (bytes : List Nat) : List Nat :=
  buf.take offset ++ bytes.take (buf.length - offset) ++ buf.drop (offset + bytes.length)

/-- The `n` bytes of a buffer starting at `offset`. -/
def listSlice (buf : List Nat) (offset n : Nat) : List Nat :=
  (buf.drop offset).take n

/-- The octal digits of a natural number, as ASCII bytes
(`Nat.toString` in base 8; `0` encodes as `"0"`). -/
def octalDigits (v : Nat) : List Nat :=
  (Nat.toDigits 8 v).map Char.toNat

/-- `value.toString(8)` for a JS integer (a leading `-` for negatives). -/
def jsOctal (v : Int) : List Nat :=
  if v < 0 then 45 :: octalDigits v.natAbs else octalDigits v.toNat

/-- `String.prototype.padStart(n, "0")` on a byte string. -/
def padStartZeros (s : List Nat) (n : Nat) : List Nat :=
  List.replicate (n - s.length) 48 ++ s

/-- The bytes written for a numeric field of width `len`: the octal
rendering padded to `len - 1` with zeros plus a NUL terminator. -/
def numericBytes (len : Nat) (v : Int) : List Nat :=
  padStartZeros (jsOctal v) (len - 1) ++ [0]

/-- `UstarHeader.writeNumeric`: fails when the encoded value exceeds
the field width. -/
def writeNumeric (buf : List Nat) (offset len : Nat) (v : Int) : Except String (List Nat) :=
  let enc := numericBytes len v
  if enc.length ≠ len then .error "Encoded value exceeds the fields maximum length"
  else .ok (bufWrite buf offset enc)

/-- `UstarHeader.writeString`: writes the bytes into a zero-filled
field of width `len`, failing when they do not fit (leaving room for a
NUL when `terminated`). -/
def writeString (buf : List Nat) (offset len : Nat) (s : List Nat) (terminated : Bool) : Except String (List Nat) :=
  if len < s.length + (if terminated then 1 else 0) then
    .error "Encoded value exceeds the fields maximum length"
  else .ok (bufWrite buf offset (s ++ List.replicate (len - s.length) 0))

/-- The bytes of the magic field as written: `"ustar\n"`. -/
def magicBytes : List Nat := [117, 115, 116, 97, 114, 10]

/-- `UstarHeader.toBuffer`: serialises the header into a 512-byte
record, computing the checksum over the buffer with the checksum field
holding eight spaces and then writing it as octal.  (Written with
explicit `Except.bind` chains; this is the do-notation of the source.) -/
def toBuffer (h : UstarHeader) : Except String (List Nat) :=
  Except.bind (splitName h.name) fun np =>
  Except.bind (writeNumeric (bufWrite (List.replicate 512 0) 0 np.1) 100 8 h.mode) fun buf2 =>
  Except.bind (writeNumeric buf2 108 8 h.uid) fun buf3 =>
  Except.bind (writeNumeric buf3 116 8 h.gid) fun buf4 =>
  Except.bind (writeNumeric buf4 124 12 h.size) fun buf5 =>
  Except.bind (writeNumeric buf5 136 12 h.mtime) fun buf6 =>
  Except.bind (writeString (bufWrite (bufWrite buf6 148 (List.replicate 8 32)) 156 h.typeflag)
    157 100 h.linkname false) fun buf9 =>
  Except.bind (writeString (bufWrite (bufWrite buf9 257 magicBytes) 263 [48, 48])
    265 32 h.uname true) fun buf12 =>
  Except.bind (writeString buf12 297 32 h.gname true) fun buf13 =>
  Except.bind (writeNumeric buf13 329 8 h.devmajor) fun buf14 =>
  Except.bind (writeNumeric buf14 337 8 h.devminor) fun buf15 =>
  writeNumeric (bufWrite buf15 345 np.2) 148 8 ((bufWrite buf15 345 np.2).sum : Nat)

/-!  ## The TAR stream (`TarFile`) -/

/-- One record written to the `TarFile` duplex: the `addFile` payload
together with the bytes the filesystem delivers for `realPath`. -/
structure TarRecord where
  realPath : List Nat
  metadataPath : List Nat
  stat : Stat
  content : List Nat
deriving Repr, DecidableEq

/-- The header built for a record inside the generator: name from
`metadataPath`, size from `stat.size`,
`mtime = Math.floor(stat.mtimeMs / 1000)`. -/
def headerFor (r : TarRecord) : UstarHeader :=
  { name := r.metadataPath, size := (r.stat.size : Int), mtime := Int.fdiv r.stat.mtimeMs 1000 }

/-- `((-size - 511) % 512) + 511` with the JS remainder: the number of
zero bytes padding the file data to the next 512-byte boundary. -/
def tarPadding (size : Nat) : Nat := 511 - (size + 511) % 512

/-- The bytes the generator yields for one file record: header record,
file content, zero padding. -/
def tarFileChunk (r : TarRecord) : Except String (List Nat) :=
  Except.bind (toBuffer (headerFor r)) fun hdr =>
    .ok (hdr ++ r.content ++ List.replicate (tarPadding r.stat.size) 0)

/-- The per-file chunks for a record sequence, in order (an exception
from any header encoding aborts the stream). -/
def tarChunks : List TarRecord → Except String (List (List Nat))
  | [] => .ok []
  | r :: rest =>
    Except.bind (tarFileChunk r) fun c =>
    Except.bind (tarChunks rest) fun cs => .ok (c :: cs)

/-- The whole byte stream produced for a sequence of `addFile` records
followed by `end()`: the per-file chunks then two blank 512-byte
records. -/
def tarStreamBytes (records : List TarRecord) : Except String (List Nat) :=
  Except.bind (tarChunks records) fun chunks =>
    .ok (chunks.flatten ++ List.replicate 1024 0)

/-- The `_logicalRecords` counter after `addFile` calls: each file adds
`1 + Math.floor((511 + stat.size) / 512)`. -/
def logicalRecordsAfter (records : List TarRecord) : Nat :=
  records.foldl (fun lr r => lr + (1 + (511 + r.stat.size) / 512)) 0

/-- The value returned by `TarFile.end()`. -/
def tarEndLength (records : List TarRecord) : Nat :=
  (logicalRecordsAfter records + 2) * 512

/-!  ## Date parsing

`new Date(string).getTime()` for the string shapes the server produces:
the query bounds (`YYYY-MM-DDTHH:MM` plus an appended `Z`) and save
file names (ISO timestamps with `_` for `:`, extension stripped).  The
model covers the ES date-time string format with a `Z` offset and the
date-only form (both UTC); any other string maps to `NaN`.  Date-time
strings without an offset are interpreted in local time by JS and are
outside the model (the server never builds one). -/

def isDigitChar (c : Char) : Bool := 48 ≤ c.toNat && c.toNat ≤ 57

/-- Reads a fixed run of decimal digit characters. -/
def readNumAux : Nat → List Char → Option Nat
  | acc, [] => some acc
  | acc, c :: rest =>
    if isDigitChar c then readNumAux (acc * 10 + (c.toNat - 48)) rest else none

/-- Days since 1970-01-01 of a proleptic-Gregorian date, as computed by
`MakeDay` (day values overflow arithmetically into the next month). -/
def daysFromCivil (y : Int) (m d : Nat) : Int :=
  let y2 : Int := if m ≤ 2 then y - 1 else y
  let era : Int := (if 0 ≤ y2 then y2 else y2 - 399) / 400
  let yoe : Int := y2 - era * 400
  let mp : Nat := (m + 9) % 12
  let doy : Int := ((153 * mp + 2) / 5 + d - 1 : Nat)
  let doe : Int := yoe * 365 + yoe / 4 - yoe / 100 + doy
  era * 146097 + doe - 719468

/-- The time value once the components are read: range-checks the
grammar bounds and computes UTC milliseconds. -/
def finishTime (y mo dy hh mi ss ms : Nat) : JsTime :=
  if mo < 1 || 12 < mo || dy < 1 || 31 < dy then .nan
  else if (hh ≤ 23 && mi ≤ 59 && ss ≤ 59) || (hh = 24 && mi = 0 && ss = 0 && ms = 0) then
    .val (daysFromCivil (y : Int) mo dy * 86400000 + (hh * 3600000 + mi * 60000 + ss * 1000 + ms : Nat))
  else .nan

/-- `new Date(s).getTime()` on the modelled string shapes. -/
def jsDateParse (s : String) : JsTime :=
  match s.data with
  | y1 :: y2 :: y3 :: y4 :: '-' :: m1 :: m2 :: '-' :: d1 :: d2 :: rest =>
    match readNumAux 0 [y1, y2, y3, y4], readNumAux 0 [m1, m2], readNumAux 0 [d1, d2] with
    | some y, some mo, some dy =>
      match rest with
      | [] => finishTime y mo dy 0 0 0 0
      | 'T' :: h1 :: h2 :: ':' :: n1 :: n2 :: rest2 =>
        match readNumAux 0 [h1, h2], readNumAux 0 [n1, n2] with
        | some hh, some mi =>
          match rest2 with
          | ['Z'] => finishTime y mo dy hh mi 0 0
          | ':' :: s1 :: s2 :: rest3 =>
            match readNumAux 0 [s1, s2] with
            | some ss =>
              match rest3 with
              | ['Z'] => finishTime y mo dy hh mi ss 0
              | '.' :: f1 :: f2 :: f3 :: 'Z' :: [] =>
                match readNumAux 0 [f1, f2, f3] with
                | some ms => finishTime y mo dy hh mi ss ms
                | none => .nan
              | _ => .nan
            | none => .nan
          | _ => .nan
        | _, _ => .nan
      | _ => .nan
    | _, _, _ => .nan
  | _ => .nan

/-- The `Save` constructor's timestamp derivation:
`new Date(name.replace(/_/g, ":").slice(0, -4)).getTime()`. -/
def jsParseSaveName (name : String) : JsTime :=
  jsDateParse (String.mk ((name.data.map (fun c => if c = '_' then ':' else c)).take (name.data.length - 4)))

/-!  ## The date filter (`fileFilterFromUrl`) -/

/-- A `RequestError` with its HTTP status code (`BadRequest` is 400). -/
structure ReqError where
  code : Nat
  message : String
deriving Repr, DecidableEq

def invalidCreatedBefore (v : String) : ReqError :=
  ⟨400, "Invalid created-before " ++ v⟩

def invalidModifiedAfter (v : String) : ReqError :=
  ⟨400, "Invalid modified-after " ++ v⟩

/-- The test of `/^\d{4}-\d{2}-\d{2}T\d{2}:\d{2}$/`. -/
def dateRe (s : String) : Bool :=
  match s.data with
  | [a, b, c, d, e, f, g, h, i, j, k, l, m, n, o, p] =>
    isDigitChar a && isDigitChar b && isDigitChar c && isDigitChar d && e = '-'
    && isDigitChar f && isDigitChar g && h = '-' && isDigitChar i && isDigitChar j
    && k = 'T' && isDigitChar l && isDigitChar m && n = ':' && isDigitChar o && isDigitChar p
  | _ => false

/-- The JS `<` on two timestamp values (false whenever either side is
`NaN` or `undefined`). -/
def jsLtB : JsTime → JsTime → Bool
  | .val a, .val b => a < b
  | _, _ => false

/-- The JS `>` on two timestamp values. -/
def jsGtB : JsTime → JsTime → Bool
  | .val a, .val b => b < a
  | _, _ => false

/-- `createdBeforeMs === undefined || node.createdAtMs === undefined
|| node.createdAtMs < createdBeforeMs` applied to a node's creation
time. -/
def axisCreated (cbMs : Option JsTime) (t : JsTime) : Bool :=
  match cbMs with
  | none => true
  | some b =>
    match t with
    | .undef => true
    | t2 => jsLtB t2 b

/-- `modifiedAfterMs === undefined || node.modifiedAtMs === undefined
|| node.modifiedAtMs > modifiedAfterMs`. -/
def axisModified (maMs : Option JsTime) (t : JsTime) : Bool :=
  match maMs with
  | none => true
  | some b =>
    match t with
    | .undef => true
    | t2 => jsGtB t2 b

/-- The predicate built when at least one bound is present. -/
def filterPred (cbMs maMs : Option JsTime) (node : JNode) : Bool :=
  axisCreated cbMs (createdOf node) && axisModified maMs (modifiedOf node)

/-- The returned filter: when both bounds are absent the source returns
the identity function, and every node object is truthy, so acceptance
is constant `true`. -/
def mkFilter (cbMs maMs : Option JsTime) : JNode → Bool :=
  match cbMs, maMs with
  | none, none => fun _ => true
  | _, _ => filterPred cbMs maMs

/-- Second half of `fileFilterFromUrl`: validates `modified-after`. -/
def fileFilterTail (cbMs : Option JsTime) (ma : Option String) : Except ReqError (JNode → Bool) :=
  match ma with
  | none => .ok (mkFilter cbMs none)
  | some v =>
    if dateRe v then .ok (mkFilter cbMs (some (jsDateParse (v ++ "Z"))))
    else .error (invalidModifiedAfter v)

/-- `fileFilterFromUrl`: validates the two bound strings in order
(failing with a 400 `BadRequest` on a malformed one, before any tree
node is touched) and builds the date predicate.  A bound that passed
the fixed format test is non-empty, hence truthy, so it is always
parsed. -/
def fileFilterFromUrl (cb ma : Option String) : Except ReqError (JNode → Bool) :=
  match cb with
  | none => fileFilterTail none ma
  | some v =>
    if dateRe v then fileFilterTail (some (jsDateParse (v ++ "Z"))) ma
    else .error (invalidCreatedBefore v)

/-!  ## The instance transforms (`nodeTransformFromUrl`) -/

/-- `last(filter(fn, iter))`: the last item of the sequence passing the
predicate, as the source's fold over the iterator. -/
def lastPassing (p : JNode → Bool) (l : List JNode) : Option JNode :=
  l.foldl (fun acc x => if p x then some x else acc) none

/-- Matching a pattern at the head of a character list. -/
def leadMatch : List Char → List Char → Bool
  | [], _ => true
  | _ :: _, [] => false
  | a :: as, b :: bs => a = b && leadMatch as bs

def replaceFirstAux (pat rep : List Char) : List Char → List Char
  | [] => []
  | c :: rest =>
    if leadMatch pat (c :: rest) then rep ++ (c :: rest).drop pat.length
    else c :: replaceFirstAux pat rep rest

/-- `String.prototype.replace` with a string pattern: replaces the
first occurrence only. -/
def jsReplaceFirst (s pat rep : String) : String :=
  String.mk (replaceFirstAux pat.data rep.data s.data)

/-- The synthetic file's name: `node.title.replace(" / ") + ".zip"`.
With only one argument, JS substitutes the string `"undefined"` for
the first occurrence of `" / "`. -/
def lastSaveName (title : String) : String :=
  jsReplaceFirst title " / " "undefined" ++ ".zip"

/-- The TypeError thrown when dereferencing `.entries` of a missing or
file-like `saves` child. -/
def derefMsg : String := "TypeError: entries of undefined"

/-- The TypeError thrown in the `Save` constructor when the picked
entry has no `stat` (it was a directory). -/
def statMsg : String := "TypeError: mtimeMs of undefined"

/-- The `instances-as=folder` transform: filtering only. -/
def folderTransform (ff : JNode → Bool) (node : JNode) : Option JNode :=
  if ff node then some node else none

/-- The `instances-as=last-save` transform: a non-Instance is only
filtered; an Instance is replaced by a synthetic `Save` named after its
title, pointing at the last save in `saves` entry order that passes the
filter, or dropped when none passes. -/
def lastSaveTransform (ff : JNode → Bool) (node : JNode) : Except String (Option JNode) :=
  if isInstance node then
    match (entriesOf node).get? "saves" with
    | none => .error derefMsg
    | some savesChild =>
      match nodeEntries? savesChild with
      | none => .error derefMsg
      | some savesEntries =>
        match lastPassing ff savesEntries.values with
        | none => .ok none
        | some f =>
          match statOf? f with
          | none => .error statMsg
          | some st =>
            let nm := lastSaveName (titleOf node)
            .ok (some (.save nm (realPathOf f) st (jsParseSaveName nm)))
  else .ok (if ff node then some node else none)

/-- The `instances-as=clusterio-last-save` transform: an Instance is
copied (same name, realPath, config; metadata re-initialised by the
constructor), its entries map cloned, and the `saves` entry replaced in
place by a synthetic `SavesDir` holding only the latest qualifying
save. -/
def clusterioTransform (ff : JNode → Bool) (node : JNode) : Except String (Option JNode) :=
  if isInstance node then
    match (entriesOf node).get? "saves" with
    | none => .error derefMsg
    | some savesChild =>
      match nodeEntries? savesChild with
      | none => .error derefMsg
      | some savesEntries =>
        match lastPassing ff savesEntries.values with
        | none => .ok none
        | some f =>
          let newSavesDir : JNode :=
            .savesDir "saves" (realPathOf savesChild) {} (.cons (nameOf f) f .nil)
          .ok (some (.inst (nameOf node) (realPathOf node) (configOf node) {}
            ((entriesOf node).setEntry "saves" newSavesDir)))
  else .ok (if ff node then some node else none)

/-!  ## The lazy walker (`walkFiles`)

The source is a generator over an explicit stack; it applies the
transform to each popped node, pushes the children of a transformed
container (in stored order) and yields transformed file-likes.  With an
arbitrary transform the loop need not terminate (the transform may keep
producing fresh containers), so the model is fuel-indexed: `none` means
the fuel ran out before the traversal finished. -/

/-- The children pushed for a container, in stored insertion order. -/
def childNodes (n : JNode) : List JNode := (entriesOf n).values

/-- The walker loop: pops a node, transforms it, recurses into
containers, yields file-likes, and skips pruned nodes. -/
def walkFiles (t : JNode → Option JNode) : Nat → List JNode → Option (List JNode)
  | _, [] => some []
  | 0, _ :: _ => none
  | fuel + 1, n :: stack =>
    match t n with
    | none => walkFiles t fuel stack
    | some cur =>
      if isContainer cur then walkFiles t fuel (childNodes cur ++ stack)
      else if isFileLike cur then (walkFiles t fuel stack).map (fun out => cur :: out)
      else walkFiles t fuel stack

/-!  ## Metadata aggregation (`calculateMeta`) -/

/-- `if (child.createdAtMs !== undefined) acc = Math.min(acc ?? Infinity, child.createdAtMs)`:
`undefined` children are skipped, `NaN` poisons, otherwise the minimum. -/
def timeMin : JsTime → JsTime → JsTime
  | acc, .undef => acc
  | _, .nan => .nan
  | .nan, _ => .nan
  | .undef, .val v => .val v
  | .val a, .val v => .val (min a v)

/-- The symmetric update with `Math.max(acc ?? -Infinity, child.modifiedAtMs)`. -/
def timeMax : JsTime → JsTime → JsTime
  | acc, .undef => acc
  | _, .nan => .nan
  | .nan, _ => .nan
  | .undef, .val v => .val v
  | .val a, .val v => .val (max a v)

/-- One loop iteration of `calculateMeta` over a (already aggregated)
child. -/
def metaStep (m : MetaData) (c : JNode) : MetaData :=
  { foldersCount := m.foldersCount + aggFolders c + (if isDirLike c then 1 else 0)
    filesCount := m.filesCount + aggFiles c + (if isFileLike c then 1 else 0)
    totalSize := m.totalSize + aggSize c
    createdAtMs := timeMin m.createdAtMs (createdOf c)
    modifiedAtMs := timeMax m.modifiedAtMs (modifiedOf c) }

/-- The whole child loop, starting from the node's current field
values. -/
def foldMetaList (m : MetaData) (es : EntryList) : MetaData :=
  es.values.foldl metaStep m

mutual
/-- `calculateMeta`: recursively aggregates, bottom-up, counts, sizes
and min/max timestamps into every container's metadata.  The JS loop
interleaves the recursive call and the accumulation; as each child's
result does not depend on the accumulator this equals recursing over
all children first and then folding. -/
def calculateMeta : JNode → JNode
  | .root m es => let es2 := calcEntries es; .root (foldMetaList m es2) es2
  | .dir n rp m es => let es2 := calcEntries es; .dir n rp (foldMetaList m es2) es2
  | .instancesDir n rp m es => let es2 := calcEntries es; .instancesDir n rp (foldMetaList m es2) es2
  | .inst n rp cfg m es => let es2 := calcEntries es; .inst n rp cfg (foldMetaList m es2) es2
  | .savesDir n rp m es => let es2 := calcEntries es; .savesDir n rp (foldMetaList m es2) es2
  | .file n rp st => .file n rp st
  | .save n rp st c => .save n rp st c

def calcEntries : EntryList → EntryList
  | .nil => .nil
  | .cons k c rest => .cons k (calculateMeta c) (calcEntries rest)
end

/-!  ## Spec-side aggregation: descendants and leaf contributions -/

mutual
/-- All proper descendants of a node, in pre-order. -/
def descList : JNode → List JNode
  | .root _ es => entDesc es
  | .dir _ _ _ es => entDesc es
  | .instancesDir _ _ _ es => entDesc es
  | .inst _ _ _ _ es => entDesc es
  | .savesDir _ _ _ es => entDesc es
  | .file .. => []
  | .save .. => []

def entDesc : EntryList → List JNode
  | .nil => []
  | .cons _ c rest => c :: descList c ++ entDesc rest
end

mutual
/-- A freshly built tree: every container still carries the
constructor-default metadata. -/
def freshNode : JNode → Bool
  | .root m es => decide (m = MetaData.init) && freshEntries es
  | .dir _ _ m es => decide (m = MetaData.init) && freshEntries es
  | .instancesDir _ _ m es => decide (m = MetaData.init) && freshEntries es
  | .inst _ _ _ m es => decide (m = MetaData.init) && freshEntries es
  | .savesDir _ _ m es => decide (m = MetaData.init) && freshEntries es
  | .file .. => true
  | .save .. => true

def freshEntries : EntryList → Bool
  | .nil => true
  | .cons _ c rest => freshNode c && freshEntries rest
end

mutual
/-- No save in the tree has a `NaN` creation timestamp (i.e. every
save file name parsed as a date; `NaN` propagation through `Math.min`
is JS float behaviour outside the integer model). -/
def nanFree : JNode → Bool
  | .root _ es => nanFreeEntries es
  | .dir _ _ _ es => nanFreeEntries es
  | .instancesDir _ _ _ es => nanFreeEntries es
  | .inst _ _ _ _ es => nanFreeEntries es
  | .savesDir _ _ _ es => nanFreeEntries es
  | .file .. => true
  | .save _ _ _ c => decide (c ≠ JsTime.nan)

def nanFreeEntries : EntryList → Bool
  | .nil => true
  | .cons _ c rest => nanFree c && nanFreeEntries rest
end

/-- A leaf's size contribution (its `stat.size`; containers give 0). -/
def leafSize (n : JNode) : Nat :=
  match statOf? n with
  | some st => st.size
  | none => 0

/-- Sum of `stat.size` over the File/Save nodes of a list. -/
def sizeSum (l : List JNode) : Nat := (l.map leafSize).sum

/-- Number of directory nodes in a list. -/
def dirCountOf (l : List JNode) : Nat := l.countP (fun c => isDirLike c)

/-- Number of File/Save nodes in a list. -/
def fileCountOf (l : List JNode) : Nat := l.countP (fun c => isFileLike c)

/-- The finite creation timestamp a node defines intrinsically (a
`Save`'s parsed name; `File`s and containers define none). -/
def createdValOf : JNode → Option Int
  | .save _ _ _ (.val v) => some v
  | _ => none

/-- The creation timestamps defined by the nodes of a list. -/
def createdVals (l : List JNode) : List Int := l.filterMap createdValOf

/-- The modification timestamp a node defines intrinsically (every
File/Save defines `stat.mtimeMs`). -/
def modifiedValOf (n : JNode) : Option Int := (statOf? n).map Stat.mtimeMs

/-- The modification timestamps defined by the nodes of a list. -/
def modifiedVals (l : List JNode) : List Int := l.filterMap modifiedValOf

/-- Minimum of a list of timestamps, `none` when empty. -/
def intMin? : List Int → Option Int
  | [] => none
  | x :: xs => some (xs.foldl min x)

/-- Maximum of a list of timestamps, `none` when empty. -/
def intMax? : List Int → Option Int
  | [] => none
  | x :: xs => some (xs.foldl max x)

/-- An optional timestamp as the field value it aggregates to. -/
def toTime : Option Int → JsTime
  | none => .undef
  | some v => .val v

/-!  ## Spec-side walker

Modelled from the spec: "produce a lazy, finite sequence of File-like
leaves in pre-order, depth-first, left-to-right (children visited in
their stored insertion order).  The transform is applied to every
visited node before deciding whether to recurse or yield; returning an
absent value prunes that node and its entire subtree."  Fuel-indexed
for the same reason as `walkFiles`. -/

mutual
def walkFilesRec (t : JNode → Option JNode) : Nat → JNode → Option (List JNode)
  | 0, _ => none
  | fuel + 1, n =>
    match t n with
    | none => some []
    | some cur =>
      if isContainer cur then walkList t fuel (childNodes cur)
      else if isFileLike cur then some [cur]
      else some []
termination_by fuel _ => (fuel, 0)

def walkList (t : JNode → Option JNode) : Nat → List JNode → Option (List JNode)
  | _, [] => some []
  | fuel, n :: rest =>
    match walkFilesRec t fuel n, walkList t fuel rest with
    | some o1, some o2 => some (o1 ++ o2)
    | _, _ => none
termination_by fuel l => (fuel, l.length + 1)
end

/-!  # Theorems

## C9: the length-validating relay -/

theorem totalBytes_cons (c : List Nat) (l : List (List Nat)) :
    totalBytes (c :: l) = c.length + totalBytes l := by
  simp [totalBytes]

theorem validateLengthGo_spec (N : Nat) :
    ∀ (chunks : List (List Nat)) (read : Nat), read ≤ N →
      ((validateLengthGo N read chunks).2 = none ↔ read + totalBytes chunks = N) ∧
      ((validateLengthGo N read chunks).2 = none → (validateLengthGo N read chunks).1 = chunks) ∧
      (read + totalBytes chunks < N →
        (validateLengthGo N read chunks).1 = chunks ∧
        (validateLengthGo N read chunks).2 = some tooShortMsg) ∧
      (N < read + totalBytes chunks → (validateLengthGo N read chunks).2 = some tooLongMsg) ∧
      (∃ k, (validateLengthGo N read chunks).1 = chunks.take k ∧
        read + totalBytes (chunks.take k) ≤ N ∧
        (k < chunks.length → N < read + totalBytes (chunks.take (k + 1)))) := by
  intro chunks
  induction chunks with
  | nil =>
    intro read hle
    have htb : totalBytes ([] : List (List Nat)) = 0 := rfl
    by_cases h : read < N
    · have he : validateLengthGo N read ([] : List (List Nat)) = ([], some tooShortMsg) := by
        simp [validateLengthGo, h]
      refine ⟨?_, ?_, ?_, ?_, 0, ?_, ?_, ?_⟩
      · constructor
        · intro hc; rw [he] at hc; exact absurd hc (by simp)
        · intro hc; rw [htb] at hc; omega
      · intro hc; rw [he] at hc; exact absurd hc (by simp)
      · intro _; rw [he]; exact ⟨rfl, rfl⟩
      · intro hc; rw [htb] at hc; omega
      · rw [he]; rfl
      · have : totalBytes (List.take 0 ([] : List (List Nat))) = 0 := rfl
        omega
      · intro hc; exact absurd hc (by simp)
    · have he : validateLengthGo N read ([] : List (List Nat)) = ([], none) := by
        simp [validateLengthGo, h]
      refine ⟨?_, ?_, ?_, ?_, 0, ?_, ?_, ?_⟩
      · constructor
        · intro _; rw [htb]; omega
        · intro _; rw [he]
      · intro _; rw [he]
      · intro hc; rw [htb] at hc; omega
      · intro hc; rw [htb] at hc; omega
      · rw [he]; rfl
      · have : totalBytes (List.take 0 ([] : List (List Nat))) = 0 := rfl
        omega
      · intro hc; exact absurd hc (by simp)
  | cons c rest ih =>
    intro read hle
    by_cases h : N < read + c.length
    · have he : validateLengthGo N read (c :: rest) = ([], some tooLongMsg) := by
        simp only [validateLengthGo]
        rw [if_pos h]
      refine ⟨?_, ?_, ?_, ?_, 0, ?_, ?_, ?_⟩
      · constructor
        · intro hc; rw [he] at hc; exact absurd hc (by simp)
        · intro hc; rw [totalBytes_cons] at hc; omega
      · intro hc; rw [he] at hc; exact absurd hc (by simp)
      · intro hc; rw [totalBytes_cons] at hc; omega
      · intro _; rw [he]
      · rw [he]; rfl
      · have : totalBytes (List.take 0 (c :: rest)) = 0 := rfl
        omega
      · intro _
        have h1 : totalBytes (List.take (0 + 1) (c :: rest)) = c.length := by
          simp [totalBytes]
        omega
    · have h2 : read + c.length ≤ N := by omega
      obtain ⟨hiff, hall, hshort, hlong, k, hk1, hk2, hk3⟩ := ih (read + c.length) h2
      have he : validateLengthGo N read (c :: rest)
          = (c :: (validateLengthGo N (read + c.length) rest).1,
             (validateLengthGo N (read + c.length) rest).2) := by
        simp only [validateLengthGo]
        rw [if_neg h]
      refine ⟨?_, ?_, ?_, ?_, k + 1, ?_, ?_, ?_⟩
      · rw [he, totalBytes_cons]
        constructor
        · intro hc
          have := hiff.mp hc
          omega
        · intro hc
          exact hiff.mpr (by omega)
      · intro hc
        rw [he] at hc ⊢
        have := hall hc
        rw [this]
      · intro hc
        rw [totalBytes_cons] at hc
        have := hshort (by omega)
        rw [he]
        exact ⟨by rw [this.1], this.2⟩
      · intro hc
        rw [totalBytes_cons] at hc
        rw [he]
        exact hlong (by omega)
      · rw [he, hk1]
        rfl
      · have ht : totalBytes (List.take (k + 1) (c :: rest)) = c.length + totalBytes (List.take k rest) := by
          rw [List.take_succ_cons, totalBytes_cons]
        omega
      · intro hklen
        have hkl : k < rest.length := by
          simp only [List.length_cons] at hklen
          omega
        have := hk3 hkl
        have ht : totalBytes (List.take (k + 1 + 1) (c :: rest)) = c.length + totalBytes (List.take (k + 1) rest) := by
          rw [List.take_succ_cons, totalBytes_cons]
        omega

/-- C9: for every declared length and chunk sequence, the
`validateLength` relay forwards chunks unchanged and in order (its
output is a prefix of the input), completes normally exactly when the
total byte count equals the declared length (and then forwards
everything), fails with the "too short" error after the sequence ends
when the total falls short, fails with the "too long" error as soon as
the running count exceeds the length, and the forwarded prefix is
exactly the chunks before the first overflow. -/
theorem validateLength_spec (N : Nat) (chunks : List (List Nat)) :
    ((validateLengthRun N chunks).2 = none ↔ totalBytes chunks = N) ∧
    ((validateLengthRun N chunks).2 = none → (validateLengthRun N chunks).1 = chunks) ∧
    (totalBytes chunks < N →
      (validateLengthRun N chunks).1 = chunks ∧
      (validateLengthRun N chunks).2 = some tooShortMsg) ∧
    (N < totalBytes chunks → (validateLengthRun N chunks).2 = some tooLongMsg) ∧
    (∃ k, (validateLengthRun N chunks).1 = chunks.take k ∧
      totalBytes (chunks.take k) ≤ N ∧
      (k < chunks.length → N < totalBytes (chunks.take (k + 1)))) := by
  have h := validateLengthGo_spec N chunks 0 (Nat.zero_le N)
  simpa [validateLengthRun] using h

/-- Witness for C9 at a concrete input: two chunks of 2 and 1 bytes
against a declared length of 3 complete normally and are forwarded
unchanged. -/
theorem validateLength_spec_witness :
    (validateLengthRun 3 [[9, 9], [7]]).2 = none ∧
    (validateLengthRun 3 [[9, 9], [7]]).1 = [[9, 9], [7]] := by
  have h := validateLength_spec 3 [[9, 9], [7]]
  have hnone : (validateLengthRun 3 [[9, 9], [7]]).2 = none := h.1.mpr (by decide)
  exact ⟨hnone, h.2.1 hnone⟩

/-!  ## C6: long-name splitting -/

set_option maxRecDepth 8000

theorem find?_split {α : Type} (p : α → Bool) :
    ∀ (l : List α) (a : α), l.find? p = some a →
      ∃ l1 l2, l = l1 ++ a :: l2 ∧ p a = true ∧ ∀ x ∈ l1, p x = false := by
  intro l
  induction l with
  | nil => intro a h; exact absurd h (by simp)
  | cons b rest ih =>
    intro a h
    by_cases hp : p b = true
    · rw [List.find?_cons_of_pos _ hp] at h
      obtain rfl := Option.some.inj h
      exact ⟨[], rest, rfl, hp, by intro x hx; exact absurd hx (by simp)⟩
    · rw [List.find?_cons_of_neg _ hp] at h
      obtain ⟨l1, l2, heq, hpa, hall⟩ := ih a h
      refine ⟨b :: l1, l2, by rw [List.cons_append, heq], hpa, ?_⟩
      intro x hx
      rcases List.mem_cons.mp hx with rfl | hx2
      · simpa using hp
      · exact hall x hx2

theorem firstSlashFrom_none (bs : List Nat) (start : Nat) (h : firstSlashFrom bs start = none) :
    ∀ i, start ≤ i → i < bs.length → bs.getD i 0 ≠ 47 := by
  intro i h1 h2 hc
  have hm := List.find?_eq_none.mp h i (List.mem_range.mpr h2)
  rw [List.getD_eq_getElem?_getD] at hc
  simp [h1, hc] at hm

theorem firstSlashFrom_some (bs : List Nat) (start i : Nat) (h : firstSlashFrom bs start = some i) :
    start ≤ i ∧ i < bs.length ∧ bs.getD i 0 = 47 ∧
      ∀ j, start ≤ j → j < i → bs.getD j 0 ≠ 47 := by
  obtain ⟨l1, l2, heq, hpa, hall⟩ := find?_split _ _ _ h
  have hcond : start ≤ i ∧ bs.getD i 0 = 47 := by simpa using hpa
  have hlen : bs.length = l1.length + (l2.length + 1) := by
    have := congrArg List.length heq
    simpa [List.length_append] using this
  have hl1 : l1.length < bs.length := by omega
  have hgi : (List.range bs.length)[l1.length]? = some i := by
    rw [heq]
    rw [List.getElem?_append_right (Nat.le_refl _)]
    simp
  have hgi2 : (List.range bs.length)[l1.length]? = some l1.length := by
    simp [List.getElem?_range, hl1]
  have hi : l1.length = i := by
    have := hgi.symm.trans hgi2
    exact (Option.some.inj this).symm
  refine ⟨hcond.1, by omega, hcond.2, ?_⟩
  intro j hj1 hj2 hc
  have hjlen : j < bs.length := by omega
  have hjr : (List.range bs.length)[j]? = some j := by
    simp [List.getElem?_range, hjlen]
  have hjl1 : l1[j]? = some j := by
    rw [heq] at hjr
    rwa [List.getElem?_append_left (by omega)] at hjr
  have hjm : j ∈ l1 := List.getElem?_mem hjl1
  have hpj := hall j hjm
  rw [List.getD_eq_getElem?_getD] at hc
  simp [hj1, hc] at hpj

/-- The counterexample input to C6 as stated: 150 bytes with a single
`/` at byte 49, so the name part after it is exactly 100 bytes. -/
def cexName : List Nat := List.replicate 49 97 ++ 47 :: List.replicate 100 98

/-- C6 counterexample: this 150-byte name has a `/` split point whose
name part is at most 100 bytes (exactly 100) and whose prefix is at
most 155 bytes, yet `splitName` fails: the code searches for a slash
only from byte `length - 100` on, so a split yielding a 100-byte name
part is never found. -/
theorem splitName_claim_false :
    100 < cexName.length ∧ cexName.getD 49 0 = 47 ∧
      cexName.length - (49 + 1) ≤ 100 ∧ 49 ≤ 155 ∧
      splitName cexName = .error "Encoded name is too long" := by
  refine ⟨by decide, by decide, by decide, by decide, ?_⟩
  rfl

/-- C6 (amended): a name of at most 100 UTF-8 bytes is returned whole
with an empty prefix.  A longer name is split at the first `/` at or
after byte `length - 100` provided that slash is at most at byte 155 —
equivalently, whenever some `/` lies in `[length - 100, 155]` — giving
a name part of at most 99 bytes and a prefix of at most 155 bytes that
concatenate (with `/`) back to the original; when no `/` lies in that
byte range, encoding fails. -/
theorem splitName_spec (name : List Nat) :
    (name.length ≤ 100 → splitName name = .ok (name, [])) ∧
    (100 < name.length →
      ((∃ i, name.length - 100 ≤ i ∧ i ≤ 155 ∧ i < name.length ∧ name.getD i 0 = 47) →
        ∃ i, name.length - 100 ≤ i ∧ i ≤ 155 ∧ i < name.length ∧ name.getD i 0 = 47 ∧
          (∀ j, name.length - 100 ≤ j → j < i → name.getD j 0 ≠ 47) ∧
          splitName name = .ok (name.drop (i + 1), name.take i) ∧
          name.take i ++ 47 :: name.drop (i + 1) = name ∧
          (name.drop (i + 1)).length ≤ 99 ∧ (name.take i).length ≤ 155) ∧
      ((∀ i, name.length - 100 ≤ i → i ≤ 155 → i < name.length → name.getD i 0 ≠ 47) →
        splitName name = .error "Encoded name is too long")) := by
  constructor
  · intro hle
    simp [splitName, hle]
  · intro hgt
    constructor
    · rintro ⟨i, hi1, hi2, hi3, hi4⟩
      cases hfs : firstSlashFrom name (name.length - 100) with
      | none =>
        exact absurd hi4 (firstSlashFrom_none name _ hfs i hi1 hi3)
      | some i0 =>
        obtain ⟨h1, h2, h3, h4⟩ := firstSlashFrom_some name _ i0 hfs
        have hi0le : i0 ≤ i := by
          by_contra hcon
          exact h4 i hi1 (by omega) hi4
        have hi0155 : i0 ≤ 155 := by omega
        refine ⟨i0, h1, hi0155, h2, h3, h4, ?_, ?_, ?_, ?_⟩
        · simp only [splitName, if_neg (by omega : ¬ name.length ≤ 100), hfs]
          rw [if_neg (by omega : ¬ 155 < i0)]
        · have hget : name[i0] = 47 := by
            have h5 := h3
            rw [List.getD_eq_getElem?_getD, List.getElem?_eq_getElem h2] at h5
            simpa using h5
          have hd : name.drop i0 = 47 :: name.drop (i0 + 1) := by
            rw [List.drop_eq_getElem_cons h2, hget]
          rw [← hd]
          exact List.take_append_drop i0 name
        · have h6 := List.length_drop (i0 + 1) name
          omega
        · rw [List.length_take]
          omega
    · intro hnone
      cases hfs : firstSlashFrom name (name.length - 100) with
      | none =>
        simp only [splitName, if_neg (by omega : ¬ name.length ≤ 100), hfs]
      | some i0 =>
        obtain ⟨h1, h2, h3, _⟩ := firstSlashFrom_some name _ i0 hfs
        have hbig : 155 < i0 := by
          by_contra hcon
          exact hnone i0 h1 (by omega) h2 h3
        simp only [splitName, if_neg (by omega : ¬ name.length ≤ 100), hfs]
        rw [if_pos hbig]

/-- The spec's own long-name example: a 140-byte path whose only `/`
sits at byte 120. -/
def exLongName : List Nat := List.replicate 120 99 ++ 47 :: List.replicate 19 100

/-- Witness for C6 at the spec's example: the 140-byte path with its
`/` at byte 120 splits into a 120-byte prefix and a 19-byte name. -/
theorem splitName_spec_witness :
    splitName exLongName = .ok (List.replicate 19 100, List.replicate 120 99) ∧
    exLongName.length = 140 := by
  have h := ((splitName_spec exLongName).2 (by decide)).1
    ⟨120, by decide, by decide, by decide, by decide⟩
  obtain ⟨i, hi1, hi2, hi3, hi4, hfirst, hok, _hcat, _hnm, _hpfx⟩ := h
  have hie : i = 120 := by
    by_cases hlt : i < 120
    · have hval : exLongName.getD i 0 = 99 := by
        rw [List.getD_eq_getElem?_getD]
        unfold exLongName
        rw [List.getElem?_append_left (by simpa using hlt), List.getElem?_replicate,
          if_pos hlt]
        rfl
      omega
    · by_cases hgt2 : 120 < i
      · exact absurd (by decide : exLongName.getD 120 0 = 47)
          (hfirst 120 (by decide) hgt2)
      · omega
  subst hie
  refine ⟨?_, by decide⟩
  rw [hok]
  have hdrop : exLongName.drop 121 = List.replicate 19 100 := by decide
  have htake : exLongName.take 120 = List.replicate 120 99 := by decide
  rw [hdrop, htake]

/-!  ## C7: header checksum -/

theorem bind_ok_elim {α β : Type} (e : Except String α) (f : α → Except String β) (b : β)
    (hok : Except.bind e f = .ok b) : ∃ a, e = .ok a ∧ f a = .ok b := by
  cases e with
  | error err => exact absurd hok (by simp [Except.bind])
  | ok a => exact ⟨a, rfl, by simpa [Except.bind] using hok⟩

theorem bufWrite_length (buf : List Nat) (o : Nat) (bs : List Nat) (h : o ≤ buf.length) :
    (bufWrite buf o bs).length = buf.length := by
  simp only [bufWrite, List.length_append, List.length_take, List.length_drop]
  omega

theorem listSlice_bufWrite_at (buf : List Nat) (o : Nat) (bs : List Nat)
    (h : o + bs.length ≤ buf.length) :
    listSlice (bufWrite buf o bs) o bs.length = bs := by
  have h1 : (buf.take o).length = o := by rw [List.length_take]; omega
  unfold bufWrite listSlice
  rw [List.take_of_length_le (l := bs) (by omega), List.append_assoc]
  rw [List.drop_append_eq_append_drop, h1, Nat.sub_self, List.drop_zero,
    List.drop_eq_nil_of_le (le_of_eq h1), List.nil_append,
    List.take_append_eq_append_take, List.take_length bs, Nat.sub_self, List.take_zero,
    List.append_nil]

theorem listSlice_bufWrite_before (buf : List Nat) (o : Nat) (bs : List Nat) (o1 n : Nat)
    (h : o1 + n ≤ o) (h2 : o ≤ buf.length) :
    listSlice (bufWrite buf o bs) o1 n = listSlice buf o1 n := by
  have h1 : (buf.take o).length = o := by rw [List.length_take]; omega
  unfold bufWrite listSlice
  rw [List.append_assoc]
  rw [List.drop_append_eq_append_drop, h1,
    Nat.sub_eq_zero_of_le (by omega : o1 ≤ o), List.drop_zero,
    List.take_append_eq_append_take]
  have hlen : ((buf.take o).drop o1).length = o - o1 := by
    rw [List.length_drop, h1]
  rw [hlen, Nat.sub_eq_zero_of_le (by omega : n ≤ o - o1), List.take_zero, List.append_nil,
    List.drop_take, List.take_take]
  congr 1
  omega

theorem bufWrite_bufWrite_same (buf : List Nat) (o : Nat) (bs1 bs2 : List Nat)
    (hl : bs1.length = bs2.length) (hb : o + bs1.length ≤ buf.length) :
    bufWrite (bufWrite buf o bs1) o bs2 = bufWrite buf o bs2 := by
  have h1 : (buf.take o).length = o := by rw [List.length_take]; omega
  have hW : bufWrite buf o bs1 = buf.take o ++ (bs1 ++ buf.drop (o + bs1.length)) := by
    unfold bufWrite
    rw [List.take_of_length_le (l := bs1) (by omega), List.append_assoc]
  have hwlen : (bufWrite buf o bs1).length = buf.length := bufWrite_length _ _ _ (by omega)
  have hTake : (bufWrite buf o bs1).take o = buf.take o := by
    rw [hW, List.take_append_eq_append_take, h1, Nat.sub_self, List.take_zero,
      List.append_nil, List.take_take]
    congr 1
    omega
  have hDrop : (bufWrite buf o bs1).drop (o + bs2.length) = buf.drop (o + bs2.length) := by
    rw [hW, List.drop_append_eq_append_drop,
      List.drop_eq_nil_of_le (by rw [h1]; omega), List.nil_append, h1,
      show o + bs2.length - o = bs2.length by omega,
      List.drop_append_eq_append_drop,
      List.drop_eq_nil_of_le (by omega : bs1.length ≤ bs2.length), List.nil_append,
      show bs2.length - bs1.length = 0 by omega, List.drop_zero, hl]
  show (bufWrite buf o bs1).take o ++ bs2.take ((bufWrite buf o bs1).length - o)
      ++ (bufWrite buf o bs1).drop (o + bs2.length) = bufWrite buf o bs2
  rw [hTake, hwlen, hDrop]
  rfl

theorem bufWrite_slice_self (b : List Nat) (o k : Nat) (h2 : o + k ≤ b.length) :
    bufWrite b o (listSlice b o k) = b := by
  unfold bufWrite listSlice
  have hkl : ((b.drop o).take k).length = k := by
    rw [List.length_take, List.length_drop]
    omega
  rw [List.take_of_length_le (l := (b.drop o).take k) (by rw [hkl]; omega), hkl,
    List.append_assoc]
  have hdd : (b.drop o).drop k = b.drop (o + k) := by
    rw [List.drop_drop, Nat.add_comm]
  rw [← hdd, List.take_append_drop k (b.drop o), List.take_append_drop o b]

theorem writeNumeric_ok (b : List Nat) (o l : Nat) (v : Int) (b2 : List Nat)
    (h : writeNumeric b o l v = .ok b2) :
    b2 = bufWrite b o (numericBytes l v) ∧ (numericBytes l v).length = l := by
  simp only [writeNumeric] at h
  by_cases hc : (numericBytes l v).length ≠ l
  · rw [if_pos hc] at h
    exact absurd h (by simp)
  · rw [if_neg hc] at h
    exact ⟨(Except.ok.inj h).symm, not_ne_iff.mp hc⟩

theorem writeString_ok (b : List Nat) (o l : Nat) (s : List Nat) (t : Bool) (b2 : List Nat)
    (h : writeString b o l s t = .ok b2) :
    b2 = bufWrite b o (s ++ List.replicate (l - s.length) 0) ∧
    (s ++ List.replicate (l - s.length) 0).length = l := by
  simp only [writeString] at h
  by_cases hc : l < s.length + (if t then 1 else 0)
  · rw [if_pos hc] at h
    exact absurd h (by simp)
  · rw [if_neg hc] at h
    have hsl : s.length ≤ l := by
      by_cases ht : t
      · simp only [ht, if_pos] at hc
        omega
      · simp only [ht, if_neg] at hc
        simp at hc
        omega
    refine ⟨(Except.ok.inj h).symm, ?_⟩
    rw [List.length_append, List.length_replicate]
    omega

/-- Shape of a successfully serialised header record: 512 bytes whose
checksum field is the octal encoding of the space-substituted sum. -/
theorem toBuffer_shape (h : UstarHeader) (buf : List Nat) (hok : toBuffer h = .ok buf) :
    buf.length = 512 ∧
    listSlice buf 148 8
      = numericBytes 8 ((bufWrite buf 148 (List.replicate 8 32)).sum : Nat) := by
  unfold toBuffer at hok
  obtain ⟨np, hsp, hok⟩ := bind_ok_elim _ _ _ hok
  obtain ⟨buf2, hw2, hok⟩ := bind_ok_elim _ _ _ hok
  obtain ⟨buf3, hw3, hok⟩ := bind_ok_elim _ _ _ hok
  obtain ⟨buf4, hw4, hok⟩ := bind_ok_elim _ _ _ hok
  obtain ⟨buf5, hw5, hok⟩ := bind_ok_elim _ _ _ hok
  obtain ⟨buf6, hw6, hok⟩ := bind_ok_elim _ _ _ hok
  obtain ⟨buf9, hw9, hok⟩ := bind_ok_elim _ _ _ hok
  obtain ⟨buf12, hw12, hok⟩ := bind_ok_elim _ _ _ hok
  obtain ⟨buf13, hw13, hok⟩ := bind_ok_elim _ _ _ hok
  obtain ⟨buf14, hw14, hok⟩ := bind_ok_elim _ _ _ hok
  obtain ⟨buf15, hw15, hok⟩ := bind_ok_elim _ _ _ hok
  obtain ⟨hbuf, hlen8⟩ := writeNumeric_ok _ _ _ _ _ hok
  obtain ⟨hb2, _⟩ := writeNumeric_ok _ _ _ _ _ hw2
  obtain ⟨hb3, _⟩ := writeNumeric_ok _ _ _ _ _ hw3
  obtain ⟨hb4, _⟩ := writeNumeric_ok _ _ _ _ _ hw4
  obtain ⟨hb5, _⟩ := writeNumeric_ok _ _ _ _ _ hw5
  obtain ⟨hb6, _⟩ := writeNumeric_ok _ _ _ _ _ hw6
  obtain ⟨hb9, _⟩ := writeString_ok _ _ _ _ _ _ hw9
  obtain ⟨hb12, _⟩ := writeString_ok _ _ _ _ _ _ hw12
  obtain ⟨hb13, _⟩ := writeString_ok _ _ _ _ _ _ hw13
  obtain ⟨hb14, _⟩ := writeNumeric_ok _ _ _ _ _ hw14
  obtain ⟨hb15, _⟩ := writeNumeric_ok _ _ _ _ _ hw15
  -- lengths along the chain
  have l0 : (List.replicate 512 0 : List Nat).length = 512 := by simp
  have l1 : (bufWrite (List.replicate 512 0) 0 np.1).length = 512 := by
    rw [bufWrite_length _ _ _ (by rw [l0]; omega), l0]
  have l2 : buf2.length = 512 := by
    rw [hb2, bufWrite_length _ _ _ (by rw [l1]; omega), l1]
  have l3 : buf3.length = 512 := by
    rw [hb3, bufWrite_length _ _ _ (by rw [l2]; omega), l2]
  have l4 : buf4.length = 512 := by
    rw [hb4, bufWrite_length _ _ _ (by rw [l3]; omega), l3]
  have l5 : buf5.length = 512 := by
    rw [hb5, bufWrite_length _ _ _ (by rw [l4]; omega), l4]
  have l6 : buf6.length = 512 := by
    rw [hb6, bufWrite_length _ _ _ (by rw [l5]; omega), l5]
  have l7 : (bufWrite buf6 148 (List.replicate 8 32)).length = 512 := by
    rw [bufWrite_length _ _ _ (by rw [l6]; omega), l6]
  have l8 : (bufWrite (bufWrite buf6 148 (List.replicate 8 32)) 156 h.typeflag).length = 512 := by
    rw [bufWrite_length _ _ _ (by rw [l7]; omega), l7]
  have l9 : buf9.length = 512 := by
    rw [hb9, bufWrite_length _ _ _ (by rw [l8]; omega), l8]
  have l10 : (bufWrite buf9 257 magicBytes).length = 512 := by
    rw [bufWrite_length _ _ _ (by rw [l9]; omega), l9]
  have l11 : (bufWrite (bufWrite buf9 257 magicBytes) 263 [48, 48]).length = 512 := by
    rw [bufWrite_length _ _ _ (by rw [l10]; omega), l10]
  have l12 : buf12.length = 512 := by
    rw [hb12, bufWrite_length _ _ _ (by rw [l11]; omega), l11]
  have l13 : buf13.length = 512 := by
    rw [hb13, bufWrite_length _ _ _ (by rw [l12]; omega), l12]
  have l14 : buf14.length = 512 := by
    rw [hb14, bufWrite_length _ _ _ (by rw [l13]; omega), l13]
  have l15 : buf15.length = 512 := by
    rw [hb15, bufWrite_length _ _ _ (by rw [l14]; omega), l14]
  have l16 : (bufWrite buf15 345 np.2).length = 512 := by
    rw [bufWrite_length _ _ _ (by rw [l15]; omega), l15]
  -- the checksum field holds spaces just before the final write
  have s7 : listSlice (bufWrite buf6 148 (List.replicate 8 32)) 148 8
      = List.replicate 8 32 := by
    have := listSlice_bufWrite_at buf6 148 (List.replicate 8 32) (by rw [l6]; simp)
    simpa using this
  have s8 : listSlice (bufWrite (bufWrite buf6 148 (List.replicate 8 32)) 156 h.typeflag) 148 8
      = List.replicate 8 32 := by
    rw [listSlice_bufWrite_before _ _ _ _ _ (by omega) (by rw [l7]; omega), s7]
  have s9 : listSlice buf9 148 8 = List.replicate 8 32 := by
    rw [hb9, listSlice_bufWrite_before _ _ _ _ _ (by omega) (by rw [l8]; omega), s8]
  have s10 : listSlice (bufWrite buf9 257 magicBytes) 148 8 = List.replicate 8 32 := by
    rw [listSlice_bufWrite_before _ _ _ _ _ (by omega) (by rw [l9]; omega), s9]
  have s11 : listSlice (bufWrite (bufWrite buf9 257 magicBytes) 263 [48, 48]) 148 8
      = List.replicate 8 32 := by
    rw [listSlice_bufWrite_before _ _ _ _ _ (by omega) (by rw [l10]; omega), s10]
  have s12 : listSlice buf12 148 8 = List.replicate 8 32 := by
    rw [hb12, listSlice_bufWrite_before _ _ _ _ _ (by omega) (by rw [l11]; omega), s11]
  have s13 : listSlice buf13 148 8 = List.replicate 8 32 := by
    rw [hb13, listSlice_bufWrite_before _ _ _ _ _ (by omega) (by rw [l12]; omega), s12]
  have s14 : listSlice buf14 148 8 = List.replicate 8 32 := by
    rw [hb14, listSlice_bufWrite_before _ _ _ _ _ (by omega) (by rw [l13]; omega), s13]
  have s15 : listSlice buf15 148 8 = List.replicate 8 32 := by
    rw [hb15, listSlice_bufWrite_before _ _ _ _ _ (by omega) (by rw [l14]; omega), s14]
  have s16 : listSlice (bufWrite buf15 345 np.2) 148 8 = List.replicate 8 32 := by
    rw [listSlice_bufWrite_before _ _ _ _ _ (by omega) (by rw [l15]; omega), s15]
  -- re-spacing the final record recovers the summed buffer
  have hre : bufWrite buf 148 (List.replicate 8 32) = bufWrite buf15 345 np.2 := by
    rw [hbuf,
      bufWrite_bufWrite_same _ _ _ _ (by rw [hlen8]; simp) (by rw [hlen8, l16]; omega)]
    rw [show (List.replicate 8 32 : List Nat) = listSlice (bufWrite buf15 345 np.2) 148 8
      from s16.symm]
    exact bufWrite_slice_self _ 148 8 (by rw [l16]; omega)
  have hsl : listSlice buf 148 8
      = numericBytes 8 ((bufWrite buf15 345 np.2).sum : Nat) := by
    rw [hbuf]
    have hat := listSlice_bufWrite_at (bufWrite buf15 345 np.2) 148
      (numericBytes 8 ((bufWrite buf15 345 np.2).sum : Nat)) (by rw [hlen8, l16]; omega)
    rw [hlen8] at hat
    exact hat
  constructor
  · rw [hbuf, bufWrite_length _ _ _ (by rw [l16]; omega), l16]
  · rw [hsl, hre]

/-- C7: every header record emitted by `toBuffer` carries in its
checksum field (8 bytes at offset 148) the octal encoding of the
unsigned byte-sum of the whole 512-byte record computed with the
checksum field held at eight ASCII spaces; equivalently, re-summing
the emitted record with its checksum field replaced by eight spaces
yields exactly the value whose octal encoding is stored there. -/
theorem toBuffer_checksum (h : UstarHeader) (buf : List Nat) (hok : toBuffer h = .ok buf) :
    buf.length = 512 ∧
    listSlice buf 148 8
      = numericBytes 8 ((bufWrite buf 148 (List.replicate 8 32)).sum : Nat) :=
  toBuffer_shape h buf hok

/-- A concrete header (default fields, 3-byte name) for the C7
witness. -/
def exHeader : UstarHeader := { name := [97, 98, 99] }

/-- The record `toBuffer` emits for `exHeader`. -/
def exBuf : List Nat := ((toBuffer exHeader).toOption).getD []

/-- Witness for C7 at a concrete header: serialisation succeeds and the
checksum field is the octal encoding of the space-substituted sum. -/
theorem toBuffer_checksum_witness :
    toBuffer exHeader = .ok exBuf ∧ exBuf.length = 512 ∧
    listSlice exBuf 148 8
      = numericBytes 8 ((bufWrite exBuf 148 (List.replicate 8 32)).sum : Nat) := by
  have hok : toBuffer exHeader = .ok exBuf := by rfl
  have h := toBuffer_checksum exHeader exBuf hok
  exact ⟨hok, h.1, h.2⟩

/-!  ## C1: TAR stream layout and declared length -/

theorem foldl_add_eq {α : Type} (f : α → Nat) :
    ∀ (l : List α) (a : Nat), l.foldl (fun acc x => acc + f x) a = a + (l.map f).sum := by
  intro l
  induction l with
  | nil => intro a; simp
  | cons x rest ih =>
    intro a
    simp only [List.foldl_cons, List.map_cons, List.sum_cons, ih]
    omega

theorem logicalRecordsAfter_eq (records : List TarRecord) :
    logicalRecordsAfter records
      = (records.map (fun r => 1 + (511 + r.stat.size) / 512)).sum := by
  unfold logicalRecordsAfter
  rw [foldl_add_eq]
  omega

theorem tarChunks_spec :
    ∀ (records : List TarRecord) (chunks : List (List Nat)),
      (∀ r ∈ records, r.content.length = r.stat.size) →
      tarChunks records = .ok chunks →
      ∃ hdrs : List (List Nat), hdrs.length = records.length ∧
        (∀ hd ∈ hdrs, hd.length = 512) ∧
        chunks = List.zipWith
          (fun hd r => hd ++ r.content ++ List.replicate (tarPadding r.stat.size) 0)
          hdrs records ∧
        (chunks.map List.length).sum
          = (records.map (fun r => 512 * (1 + (511 + r.stat.size) / 512))).sum := by
  intro records
  induction records with
  | nil =>
    intro chunks _ h
    obtain rfl : ([] : List (List Nat)) = chunks := Except.ok.inj h
    exact ⟨[], rfl, by intro hd hhd; exact absurd hhd (by simp), by simp, by simp⟩
  | cons r rest ih =>
    intro chunks hc h
    simp only [tarChunks] at h
    obtain ⟨c, hcok, h⟩ := bind_ok_elim _ _ _ h
    obtain ⟨cs, hcsok, h⟩ := bind_ok_elim _ _ _ h
    obtain rfl : c :: cs = chunks := Except.ok.inj h
    obtain ⟨hdrs, hlen, h512, hzip, hsum⟩ :=
      ih cs (fun x hx => hc x (by simp [hx])) hcsok
    simp only [tarFileChunk] at hcok
    obtain ⟨hdr, hhok, hco⟩ := bind_ok_elim _ _ _ hcok
    obtain rfl : hdr ++ r.content ++ List.replicate (tarPadding r.stat.size) 0 = c :=
      Except.ok.inj hco
    have hdr512 : hdr.length = 512 := (toBuffer_shape _ _ hhok).1
    have hcl : r.content.length = r.stat.size := hc r (by simp)
    refine ⟨hdr :: hdrs, by simp [hlen], ?_, by simp [hzip], ?_⟩
    · intro hd hhd
      rcases List.mem_cons.mp hhd with rfl | hm
      · exact hdr512
      · exact h512 hd hm
    · simp only [List.map_cons, List.sum_cons, hsum, List.length_append,
        List.length_replicate, hdr512, hcl]
      have hmod : (r.stat.size + 511) % 512 ≤ 511 := by omega
      have hdiv : r.stat.size + 511 = 512 * ((r.stat.size + 511) / 512) + (r.stat.size + 511) % 512 :=
        (Nat.div_add_mod _ _).symm
      unfold tarPadding
      omega

/-- C1: for every sequence of files registered with `addFile` and
closed with `end()` (with each file's on-disk bytes matching its
registered `stat.size`), when every header encodes, the produced byte
stream is, per file in registration order, one 512-byte USTAR header
record, the file's content bytes, and zero padding to the next
512-byte boundary, terminated by two all-zero 512-byte records; and
the value `end()` returns equals
`512 * (2 + Σ (1 + ceil(size/512)))`, which is the actual byte count
of the stream. -/
theorem tarFile_stream_spec (records : List TarRecord) (s : List Nat)
    (hc : ∀ r ∈ records, r.content.length = r.stat.size)
    (hok : tarStreamBytes records = .ok s) :
    (∃ hdrs : List (List Nat), hdrs.length = records.length ∧
      (∀ hd ∈ hdrs, hd.length = 512) ∧
      s = (List.zipWith
        (fun hd r => hd ++ r.content ++ List.replicate (tarPadding r.stat.size) 0)
        hdrs records).flatten ++ List.replicate 1024 0) ∧
    s.length = tarEndLength records ∧
    tarEndLength records
      = 512 * (2 + (records.map (fun r => 1 + (511 + r.stat.size) / 512)).sum) := by
  unfold tarStreamBytes at hok
  obtain ⟨chunks, hck, hok⟩ := bind_ok_elim _ _ _ hok
  obtain rfl : chunks.flatten ++ List.replicate 1024 0 = s := Except.ok.inj hok
  obtain ⟨hdrs, hlen, h512, hzip, hsum⟩ := tarChunks_spec records chunks hc hck
  have hend : tarEndLength records
      = 512 * (2 + (records.map (fun r => 1 + (511 + r.stat.size) / 512)).sum) := by
    unfold tarEndLength
    rw [logicalRecordsAfter_eq]
    omega
  refine ⟨⟨hdrs, hlen, h512, by rw [hzip]⟩, ?_, hend⟩
  have hm : (records.map (fun r => 512 * (1 + (511 + r.stat.size) / 512))).sum
      = 512 * (records.map (fun r => 1 + (511 + r.stat.size) / 512)).sum := by
    rw [← List.sum_map_mul_left]
  rw [List.length_append, List.length_flatten, List.length_replicate, hsum, hend, hm]
  omega

/-- A concrete one-file registration for the C1 witness: 1 content
byte, matching `stat.size`. -/
def exRecord : TarRecord := ⟨[120], [121], ⟨1, 0⟩, [7]⟩

/-- The stream `TarFile` produces for the single `exRecord`. -/
def exStream : List Nat := ((tarStreamBytes [exRecord]).toOption).getD []

/-- Witness for C1: the one-file stream exists, its length matches the
value returned by `end()`, and that value is 2048. -/
theorem tarFile_stream_spec_witness :
    tarStreamBytes [exRecord] = .ok exStream ∧
    exStream.length = tarEndLength [exRecord] ∧
    tarEndLength [exRecord] = 2048 := by
  have hok : tarStreamBytes [exRecord] = .ok exStream := by rfl
  have h := tarFile_stream_spec [exRecord] exStream
    (by intro r hr; rcases List.mem_singleton.mp hr with rfl; rfl) hok
  exact ⟨hok, h.2.1, by decide⟩

/-!  ## C3: the date filter -/

theorem axisCreated_iff (cbMs : Option JsTime) (t : JsTime) :
    axisCreated cbMs t = true ↔
      (cbMs = none ∨ t = JsTime.undef ∨
        ∃ b c, cbMs = some (JsTime.val b) ∧ t = JsTime.val c ∧ c < b) := by
  cases cbMs with
  | none => simp [axisCreated]
  | some b =>
    cases t with
    | undef => simp [axisCreated]
    | nan => cases b <;> simp [axisCreated, jsLtB]
    | val c =>
      cases b with
      | undef => simp [axisCreated, jsLtB]
      | nan => simp [axisCreated, jsLtB]
      | val b2 => simp [axisCreated, jsLtB]

theorem axisModified_iff (maMs : Option JsTime) (t : JsTime) :
    axisModified maMs t = true ↔
      (maMs = none ∨ t = JsTime.undef ∨
        ∃ b c, maMs = some (JsTime.val b) ∧ t = JsTime.val c ∧ b < c) := by
  cases maMs with
  | none => simp [axisModified]
  | some b =>
    cases t with
    | undef => simp [axisModified]
    | nan => cases b <;> simp [axisModified, jsGtB]
    | val c =>
      cases b with
      | undef => simp [axisModified, jsGtB]
      | nan => simp [axisModified, jsGtB]
      | val b2 => simp [axisModified, jsGtB]

theorem mkFilter_true_iff (cbMs maMs : Option JsTime) (node : JNode) :
    mkFilter cbMs maMs node = true ↔
      ((cbMs = none ∨ createdOf node = JsTime.undef ∨
        ∃ b c, cbMs = some (JsTime.val b) ∧ createdOf node = JsTime.val c ∧ c < b) ∧
       (maMs = none ∨ modifiedOf node = JsTime.undef ∨
        ∃ b c, maMs = some (JsTime.val b) ∧ modifiedOf node = JsTime.val c ∧ b < c)) := by
  cases cbMs with
  | none =>
    cases maMs with
    | none => simp [mkFilter]
    | some mb =>
      unfold mkFilter filterPred
      rw [Bool.and_eq_true, axisCreated_iff, axisModified_iff]
  | some cbv =>
    cases maMs with
    | none =>
      unfold mkFilter filterPred
      rw [Bool.and_eq_true, axisCreated_iff, axisModified_iff]
    | some mb =>
      unfold mkFilter filterPred
      rw [Bool.and_eq_true, axisCreated_iff, axisModified_iff]

/-- C3: the date filter built from the two URL bounds fails with a 400
client error on the first bound string not matching the fixed
`YYYY-MM-DDTHH:MM` shape (no node is ever consulted: no filter function
is even produced); otherwise it produces a filter accepting a node
exactly when (the `created-before` bound is absent, or the node has no
`createdAtMs`, or its `createdAtMs` is strictly below the parsed
bound) and (symmetrically, `modified-after` absent, no `modifiedAtMs`,
or strictly above the bound); with both bounds absent every node is
accepted. -/
theorem fileFilter_spec :
    (∀ v ma, dateRe v = false →
      fileFilterFromUrl (some v) ma = .error (invalidCreatedBefore v) ∧
      (invalidCreatedBefore v).code = 400) ∧
    (∀ cb v, (∀ u, cb = some u → dateRe u = true) → dateRe v = false →
      fileFilterFromUrl cb (some v) = .error (invalidModifiedAfter v) ∧
      (invalidModifiedAfter v).code = 400) ∧
    (∀ cb ma f, fileFilterFromUrl cb ma = .ok f →
      ∀ node, f node = true ↔
        ((cb = none ∨ createdOf node = JsTime.undef ∨
          ∃ u b c, cb = some u ∧ jsDateParse (u ++ "Z") = JsTime.val b ∧
            createdOf node = JsTime.val c ∧ c < b) ∧
         (ma = none ∨ modifiedOf node = JsTime.undef ∨
          ∃ u b c, ma = some u ∧ jsDateParse (u ++ "Z") = JsTime.val b ∧
            modifiedOf node = JsTime.val c ∧ b < c))) ∧
    (∀ f, fileFilterFromUrl none none = .ok f → ∀ node, f node = true) := by
  refine ⟨?_, ?_, ?_, ?_⟩
  · intro v ma hv
    refine ⟨?_, rfl⟩
    simp [fileFilterFromUrl, hv]
  · intro cb v hcb hv
    refine ⟨?_, rfl⟩
    cases cb with
    | none => simp [fileFilterFromUrl, fileFilterTail, hv]
    | some u => simp [fileFilterFromUrl, fileFilterTail, hcb u rfl, hv]
  · intro cb ma f hok node
    cases cb with
    | none =>
      cases ma with
      | none =>
        simp only [fileFilterFromUrl, fileFilterTail] at hok
        obtain rfl : mkFilter none none = f := Except.ok.inj hok
        rw [mkFilter_true_iff]
        simp
      | some mv =>
        simp only [fileFilterFromUrl, fileFilterTail] at hok
        split at hok
        · obtain rfl : mkFilter none (some (jsDateParse (mv ++ "Z"))) = f :=
            Except.ok.inj hok
          rw [mkFilter_true_iff]
          simp
        · exact absurd hok (by simp)
    | some cv =>
      cases ma with
      | none =>
        simp only [fileFilterFromUrl, fileFilterTail] at hok
        split at hok
        · obtain rfl : mkFilter (some (jsDateParse (cv ++ "Z"))) none = f :=
            Except.ok.inj hok
          rw [mkFilter_true_iff]
          simp
        · exact absurd hok (by simp)
      | some mv =>
        simp only [fileFilterFromUrl, fileFilterTail] at hok
        split at hok
        · split at hok
          · obtain rfl : mkFilter (some (jsDateParse (cv ++ "Z")))
                (some (jsDateParse (mv ++ "Z"))) = f := Except.ok.inj hok
            rw [mkFilter_true_iff]
            simp
          · exact absurd hok (by simp)
        · exact absurd hok (by simp)
  · intro f hok node
    simp only [fileFilterFromUrl, fileFilterTail] at hok
    obtain rfl : mkFilter none none = f := Except.ok.inj hok
    rfl

/-- Witness for C3 at concrete inputs: a malformed bound errors with
code 400, and the filter built from `created-before 2024-02-15T00:00`
accepts a save created 2024-02-01 and rejects one created 2024-03-01. -/
theorem fileFilter_spec_witness :
    fileFilterFromUrl (some "not-a-date") none
      = .error (invalidCreatedBefore "not-a-date") ∧
    (invalidCreatedBefore "not-a-date").code = 400 ∧
    (∀ f, fileFilterFromUrl none none = .ok f →
      f (JNode.file "a.txt" "/a.txt" ⟨1, 0⟩) = true) := by
  have h1 := fileFilter_spec.1 "not-a-date" none (by decide)
  refine ⟨h1.1, h1.2, ?_⟩
  intro f hok
  exact fileFilter_spec.2.2.2 f hok _

/-!  ## C4 / C5 / C10: the instance transforms -/

theorem lastPassing_foldl (p : JNode → Bool) :
    ∀ (l : List JNode) (acc : Option JNode),
      l.foldl (fun a x => if p x then some x else a) acc
        = match lastPassing p l with
          | some x => some x
          | none => acc := by
  intro l
  induction l with
  | nil => intro acc; rfl
  | cons y rest ih =>
    intro acc
    simp only [List.foldl_cons]
    rw [ih]
    have hR : lastPassing p (y :: rest)
        = match lastPassing p rest with
          | some x => some x
          | none => if p y then some y else none := by
      show rest.foldl _ (if p y then some y else none) = _
      rw [ih]
    rw [hR]
    cases lastPassing p rest with
    | some x => rfl
    | none => by_cases hy : p y <;> simp [hy]

theorem lastPassing_cons (p : JNode → Bool) (y : JNode) (rest : List JNode) :
    lastPassing p (y :: rest)
      = match lastPassing p rest with
        | some x => some x
        | none => if p y then some y else none := by
  show rest.foldl _ (if p y then some y else none) = _
  rw [lastPassing_foldl]

theorem lastPassing_none_iff (p : JNode → Bool) :
    ∀ l : List JNode, lastPassing p l = none ↔ ∀ x ∈ l, p x = false := by
  intro l
  induction l with
  | nil => simp [lastPassing]
  | cons y rest ih =>
    rw [lastPassing_cons, List.forall_mem_cons]
    cases hl : lastPassing p rest with
    | some x =>
      constructor
      · intro hc; exact absurd hc (by simp)
      · intro hall
        exact absurd (ih.mpr hall.2) (by simp [hl])
    | none =>
      by_cases hy : p y
      · constructor
        · intro hc; rw [if_pos hy] at hc; exact absurd hc (by simp)
        · intro hall; rw [hall.1] at hy; exact absurd hy (by simp)
      · rw [if_neg hy]
        constructor
        · intro _
          exact ⟨by simpa using hy, ih.mp hl⟩
        · intro _
          rfl

theorem lastPassing_some (p : JNode → Bool) :
    ∀ (l : List JNode) (x : JNode), lastPassing p l = some x →
      ∃ l1 l2, l = l1 ++ x :: l2 ∧ p x = true ∧ ∀ y ∈ l2, p y = false := by
  intro l
  induction l with
  | nil => intro x h; exact absurd h (by simp [lastPassing])
  | cons y rest ih =>
    intro x h
    rw [lastPassing_cons] at h
    cases hl : lastPassing p rest with
    | some z =>
      rw [hl] at h
      obtain rfl : z = x := Option.some.inj h
      obtain ⟨l1, l2, heq, hp, hlast⟩ := ih z hl
      exact ⟨y :: l1, l2, by rw [List.cons_append, heq], hp, hlast⟩
    | none =>
      rw [hl] at h
      by_cases hy : p y
      · rw [if_pos hy] at h
        obtain rfl : y = x := Option.some.inj h
        exact ⟨[], rest, rfl, hy, (lastPassing_none_iff p rest).mp hl⟩
      · rw [if_neg hy] at h
        exact absurd h (by simp)

theorem isFileLike_stat (n : JNode) (h : isFileLike n = true) : ∃ st, statOf? n = some st := by
  cases n with
  | file nm rp st => exact ⟨st, rfl⟩
  | save nm rp st c => exact ⟨st, rfl⟩
  | root m es => exact absurd h (by simp [isFileLike])
  | dir nm rp m es => exact absurd h (by simp [isFileLike])
  | instancesDir nm rp m es => exact absurd h (by simp [isFileLike])
  | inst nm rp cfg m es => exact absurd h (by simp [isFileLike])
  | savesDir nm rp m es => exact absurd h (by simp [isFileLike])

/-- C4: for an Instance whose `saves` directory holds file-like
entries, the `last-save` transform either drops the Instance (exactly
when no entry passes the filter) or replaces it with a synthetic
single-file `Save` node named after the instance's title, whose
`realPath` and `stat` are those of the last entry in stored order that
passes the filter (every later entry fails the filter). -/
theorem lastSave_spec (ff : JNode → Bool) (node savesChild : JNode) (savesEntries : EntryList)
    (hinst : isInstance node = true)
    (hget : (entriesOf node).get? "saves" = some savesChild)
    (hents : nodeEntries? savesChild = some savesEntries)
    (hfiles : ∀ x ∈ savesEntries.values, isFileLike x = true) :
    ((∀ f ∈ savesEntries.values, ff f = false) ∧ lastSaveTransform ff node = .ok none) ∨
    (∃ f st l1 l2, savesEntries.values = l1 ++ f :: l2 ∧ ff f = true ∧
      (∀ g ∈ l2, ff g = false) ∧ statOf? f = some st ∧
      lastSaveTransform ff node
        = .ok (some (JNode.save (lastSaveName (titleOf node)) (realPathOf f) st
            (jsParseSaveName (lastSaveName (titleOf node)))))) := by
  cases hlp : lastPassing ff savesEntries.values with
  | none =>
    have hred : lastSaveTransform ff node = .ok none := by
      simp only [lastSaveTransform, hinst, hget, hents, hlp, if_true]
    exact Or.inl ⟨(lastPassing_none_iff ff _).mp hlp, hred⟩
  | some f =>
    obtain ⟨l1, l2, heq, hp, hlast⟩ := lastPassing_some ff _ f hlp
    have hfl : isFileLike f = true := hfiles f (by rw [heq]; simp)
    obtain ⟨st, hst⟩ := isFileLike_stat f hfl
    have hred : lastSaveTransform ff node
        = .ok (some (.save (lastSaveName (titleOf node)) (realPathOf f) st
            (jsParseSaveName (lastSaveName (titleOf node))))) := by
      simp only [lastSaveTransform, hinst, hget, hents, hlp, hst, if_true]
    exact Or.inr ⟨f, st, l1, l2, heq, hp, hlast, hst, hred⟩

/-- The spec's example saves: created 2024-01-01, 2024-02-01 and
2024-03-01, with creation times parsed from the file names exactly as
the `Save` constructor does. -/
def exSave1 : JNode :=
  .save "2024-01-01T00_00_00.000Z.zip" "/saves/s1" ⟨100, 10⟩
    (jsParseSaveName "2024-01-01T00_00_00.000Z.zip")

def exSave2 : JNode :=
  .save "2024-02-01T00_00_00.000Z.zip" "/saves/s2" ⟨200, 20⟩
    (jsParseSaveName "2024-02-01T00_00_00.000Z.zip")

def exSave3 : JNode :=
  .save "2024-03-01T00_00_00.000Z.zip" "/saves/s3" ⟨300, 30⟩
    (jsParseSaveName "2024-03-01T00_00_00.000Z.zip")

def exSavesEntries : EntryList :=
  .cons "2024-01-01T00_00_00.000Z.zip" exSave1
    (.cons "2024-02-01T00_00_00.000Z.zip" exSave2
      (.cons "2024-03-01T00_00_00.000Z.zip" exSave3 .nil))

def exSavesDir : JNode := .savesDir "saves" "/i/saves" {} exSavesEntries

def exInstance : JNode :=
  .inst "inst1" "/i" ⟨"My Instance", 7⟩ {} (.cons "saves" exSavesDir .nil)

/-- The filter for `created-before=2024-02-15T00:00` (the error branch
is unreachable for this well-formed bound). -/
def exFilter : JNode → Bool := fun n =>
  match fileFilterFromUrl (some "2024-02-15T00:00") none with
  | .ok f => f n
  | .error _ => false

/-- Witness for C4 at the spec's example: with saves created
2024-01-01/02-01/03-01 and a `created-before` bound of 2024-02-15, the
transform yields a synthetic save pointing at the 2024-02-01 save's
`realPath` and `stat`. -/
theorem lastSave_spec_witness :
    (((∀ f ∈ exSavesEntries.values, exFilter f = false) ∧
        lastSaveTransform exFilter exInstance = .ok none) ∨
      (∃ f st l1 l2, exSavesEntries.values = l1 ++ f :: l2 ∧ exFilter f = true ∧
        (∀ g ∈ l2, exFilter g = false) ∧ statOf? f = some st ∧
        lastSaveTransform exFilter exInstance
          = .ok (some (JNode.save (lastSaveName (titleOf exInstance)) (realPathOf f) st
              (jsParseSaveName (lastSaveName (titleOf exInstance))))))) ∧
    lastSaveTransform exFilter exInstance
      = .ok (some (JNode.save "My Instance.zip" "/saves/s2" ⟨200, 20⟩
          (jsParseSaveName "My Instance.zip"))) := by
  constructor
  · refine lastSave_spec exFilter exInstance exSavesDir exSavesEntries rfl rfl rfl ?_
    intro x hx
    simp [exSavesEntries, EntryList.values] at hx
    rcases hx with rfl | rfl | rfl <;> rfl
  · rfl

theorem get?_setEntry_self (es : EntryList) (key : String) (v : JNode) :
    (es.setEntry key v).get? key = some v := by
  induction es using entryListInd with
  | hnil => simp [EntryList.setEntry, EntryList.get?]
  | hcons k n rest ih =>
    by_cases hk : k = key
    · simp [EntryList.setEntry, hk, EntryList.get?]
    · simp [EntryList.setEntry, hk, EntryList.get?, ih]

theorem get?_setEntry_ne (es : EntryList) (key k2 : String) (v : JNode) (h : k2 ≠ key) :
    (es.setEntry key v).get? k2 = es.get? k2 := by
  induction es using entryListInd with
  | hnil => simp [EntryList.setEntry, EntryList.get?, Ne.symm h]
  | hcons k n rest ih =>
    by_cases hk : k = key
    · subst hk
      simp [EntryList.setEntry, EntryList.get?, Ne.symm h]
    · simp [EntryList.setEntry, hk, EntryList.get?, ih]

theorem keys_setEntry_of_hasKey (es : EntryList) (key : String) (v : JNode)
    (h : es.hasKey key = true) : (es.setEntry key v).keys = es.keys := by
  induction es using entryListInd with
  | hnil => simp [EntryList.hasKey] at h
  | hcons k n rest ih =>
    by_cases hk : k = key
    · simp [EntryList.setEntry, hk, EntryList.keys]
    · have h2 : rest.hasKey key = true := by
        simp [EntryList.hasKey, hk] at h
        exact h
      simp [EntryList.setEntry, hk, EntryList.keys, ih h2]

theorem get?_hasKey (es : EntryList) (key : String) (x : JNode) (h : es.get? key = some x) :
    es.hasKey key = true := by
  induction es using entryListInd with
  | hnil => simp [EntryList.get?] at h
  | hcons k n rest ih =>
    by_cases hk : k = key
    · simp [EntryList.hasKey, hk]
    · simp only [EntryList.get?, if_neg hk] at h
      simp [EntryList.hasKey, hk, ih h]

/-- C5: for an Instance with a `saves` directory, the
`clusterio-last-save` transform drops the Instance exactly when no
entry passes the filter; otherwise it returns a copy of the Instance
with the original name, realPath and config whose `saves` entry is
replaced in place by a synthetic `SavesDir` holding exactly the latest
qualifying entry, while every other entry is unchanged (same node
under the same key) and the key order is preserved. -/
theorem clusterio_spec (ff : JNode → Bool) (node savesChild : JNode) (savesEntries : EntryList)
    (hinst : isInstance node = true)
    (hget : (entriesOf node).get? "saves" = some savesChild)
    (hents : nodeEntries? savesChild = some savesEntries) :
    ((∀ f ∈ savesEntries.values, ff f = false) ∧ clusterioTransform ff node = .ok none) ∨
    (∃ f l1 l2, savesEntries.values = l1 ++ f :: l2 ∧ ff f = true ∧
      (∀ g ∈ l2, ff g = false) ∧
      (∃ newDir newEntries,
        newDir = JNode.savesDir "saves" (realPathOf savesChild) {}
          (.cons (nameOf f) f .nil) ∧
        newEntries = (entriesOf node).setEntry "saves" newDir ∧
        clusterioTransform ff node
          = .ok (some (.inst (nameOf node) (realPathOf node) (configOf node) {} newEntries)) ∧
        (entriesOf newDir).values = [f] ∧
        newEntries.get? "saves" = some newDir ∧
        (∀ k2, k2 ≠ "saves" → newEntries.get? k2 = (entriesOf node).get? k2) ∧
        newEntries.keys = (entriesOf node).keys)) := by
  cases hlp : lastPassing ff savesEntries.values with
  | none =>
    have hred : clusterioTransform ff node = .ok none := by
      simp only [clusterioTransform, hinst, hget, hents, hlp, if_true]
    exact Or.inl ⟨(lastPassing_none_iff ff _).mp hlp, hred⟩
  | some f =>
    obtain ⟨l1, l2, heq, hp, hlast⟩ := lastPassing_some ff _ f hlp
    have hred : clusterioTransform ff node
        = .ok (some (.inst (nameOf node) (realPathOf node) (configOf node) {}
            ((entriesOf node).setEntry "saves"
              (JNode.savesDir "saves" (realPathOf savesChild) {}
                (.cons (nameOf f) f .nil))))) := by
      simp only [clusterioTransform, hinst, hget, hents, hlp, if_true]
    refine Or.inr ⟨f, l1, l2, heq, hp, hlast, _, _, rfl, rfl, hred, rfl,
      get?_setEntry_self _ _ _, ?_, ?_⟩
    · intro k2 hk2
      exact get?_setEntry_ne _ _ _ _ hk2
    · exact keys_setEntry_of_hasKey _ _ _ (get?_hasKey _ _ _ hget)

/-- Witness for C5: applying the transform to the concrete example
Instance yields the copy whose `saves` directory holds only the
2024-02-01 save, other fields preserved. -/
theorem clusterio_spec_witness :
    (((∀ f ∈ exSavesEntries.values, exFilter f = false) ∧
        clusterioTransform exFilter exInstance = .ok none) ∨
      (∃ f l1 l2, exSavesEntries.values = l1 ++ f :: l2 ∧ exFilter f = true ∧
        (∀ g ∈ l2, exFilter g = false) ∧
        (∃ newDir newEntries,
          newDir = JNode.savesDir "saves" (realPathOf exSavesDir) {}
            (.cons (nameOf f) f .nil) ∧
          newEntries = (entriesOf exInstance).setEntry "saves" newDir ∧
          clusterioTransform exFilter exInstance
            = .ok (some (.inst (nameOf exInstance) (realPathOf exInstance)
                (configOf exInstance) {} newEntries)) ∧
          (entriesOf newDir).values = [f] ∧
          newEntries.get? "saves" = some newDir ∧
          (∀ k2, k2 ≠ "saves" → newEntries.get? k2 = (entriesOf exInstance).get? k2) ∧
          newEntries.keys = (entriesOf exInstance).keys))) ∧
    clusterioTransform exFilter exInstance
      = .ok (some (.inst "inst1" "/i" ⟨"My Instance", 7⟩ {}
          (.cons "saves"
            (.savesDir "saves" "/i/saves" {}
              (.cons "2024-02-01T00_00_00.000Z.zip" exSave2 .nil)) .nil))) := by
  constructor
  · exact clusterio_spec exFilter exInstance exSavesDir exSavesEntries rfl rfl rfl
  · rfl

theorem nodeEntries?_none_not_container (c : JNode) (h : nodeEntries? c = none) :
    isContainer c = false := by
  cases c <;> first | rfl | exact absurd h (by simp [nodeEntries?])

theorem nodeEntries?_some_container (c : JNode) (es : EntryList)
    (h : nodeEntries? c = some es) : isContainer c = true := by
  cases c <;> first | rfl | exact absurd h (by simp [nodeEntries?])

theorem lastSaveTransform_container_not_deref (ff : JNode → Bool) (node savesChild : JNode)
    (savesEntries : EntryList) (hinst : isInstance node = true)
    (hget : (entriesOf node).get? "saves" = some savesChild)
    (hents : nodeEntries? savesChild = some savesEntries) :
    lastSaveTransform ff node ≠ .error derefMsg := by
  cases hlp : lastPassing ff savesEntries.values with
  | none =>
    have hred : lastSaveTransform ff node = .ok none := by
      simp only [lastSaveTransform, hinst, hget, hents, hlp, if_true]
    rw [hred]
    simp
  | some f =>
    cases hst : statOf? f with
    | none =>
      have hred : lastSaveTransform ff node = .error statMsg := by
        simp only [lastSaveTransform, hinst, hget, hents, hlp, hst, if_true]
      rw [hred]
      intro hc
      exact absurd (Except.error.inj hc) (by decide)
    | some st =>
      have hred : lastSaveTransform ff node
          = .ok (some (.save (lastSaveName (titleOf node)) (realPathOf f) st
              (jsParseSaveName (lastSaveName (titleOf node))))) := by
        simp only [lastSaveTransform, hinst, hget, hents, hlp, hst, if_true]
      rw [hred]
      simp

theorem clusterioTransform_container_not_deref (ff : JNode → Bool) (node savesChild : JNode)
    (savesEntries : EntryList) (hinst : isInstance node = true)
    (hget : (entriesOf node).get? "saves" = some savesChild)
    (hents : nodeEntries? savesChild = some savesEntries) :
    clusterioTransform ff node ≠ .error derefMsg := by
  cases hlp : lastPassing ff savesEntries.values with
  | none =>
    have hred : clusterioTransform ff node = .ok none := by
      simp only [clusterioTransform, hinst, hget, hents, hlp, if_true]
    rw [hred]
    simp
  | some f =>
    have hred : clusterioTransform ff node
        = .ok (some (.inst (nameOf node) (realPathOf node) (configOf node) {}
            ((entriesOf node).setEntry "saves"
              (JNode.savesDir "saves" (realPathOf savesChild) {}
                (.cons (nameOf f) f .nil))))) := by
      simp only [clusterioTransform, hinst, hget, hents, hlp, if_true]
    rw [hred]
    simp

/-- C10: on an Instance node, both `last-save` and
`clusterio-last-save` dereference the entries of the `saves` child
without any guard.  When the Instance has no child named `saves` both
transforms throw the TypeError (neither dropping the Instance nor
passing it through); and that dereference error is reachable precisely
when the Instance lacks a directory-like child named `saves`. -/
theorem transforms_require_saves (ff : JNode → Bool) (node : JNode)
    (hinst : isInstance node = true) :
    ((entriesOf node).get? "saves" = none →
      lastSaveTransform ff node = .error derefMsg ∧
      clusterioTransform ff node = .error derefMsg) ∧
    ((lastSaveTransform ff node = .error derefMsg ∨
      clusterioTransform ff node = .error derefMsg) ↔
      ¬ ∃ c, (entriesOf node).get? "saves" = some c ∧ isContainer c = true) := by
  cases hg : (entriesOf node).get? "saves" with
  | none =>
    have h1 : lastSaveTransform ff node = .error derefMsg := by
      simp only [lastSaveTransform, hinst, hg, if_true]
    have h2 : clusterioTransform ff node = .error derefMsg := by
      simp only [clusterioTransform, hinst, hg, if_true]
    refine ⟨fun _ => ⟨h1, h2⟩, ?_, fun _ => Or.inl h1⟩
    rintro _ ⟨c, hc, _⟩
    exact absurd hc (by simp)
  | some c =>
    refine ⟨fun hcon => absurd hcon (by simp), ?_⟩
    cases hce : nodeEntries? c with
    | none =>
      have h1 : lastSaveTransform ff node = .error derefMsg := by
        simp only [lastSaveTransform, hinst, hg, hce, if_true]
      constructor
      · rintro _ ⟨c2, hc2, hcont⟩
        obtain rfl : c = c2 := Option.some.inj hc2
        rw [nodeEntries?_none_not_container c hce] at hcont
        exact absurd hcont (by simp)
      · intro _
        exact Or.inl h1
    | some es =>
      have hcont : isContainer c = true := nodeEntries?_some_container c es hce
      constructor
      · intro hor
        exfalso
        cases hor with
        | inl h1 => exact lastSaveTransform_container_not_deref ff node c es hinst hg hce h1
        | inr h2 => exact clusterioTransform_container_not_deref ff node c es hinst hg hce h2
      · intro hno
        exact absurd ⟨c, rfl, hcont⟩ hno

/-- An Instance with no `saves` child, for the C10 witness. -/
def exInstanceNoSaves : JNode := .inst "i2" "/i2" ⟨"T2", 2⟩ {} .nil

/-- Witness for C10: both transforms throw the entries TypeError on an
Instance lacking a `saves` child. -/
theorem transforms_require_saves_witness :
    lastSaveTransform (fun _ => true) exInstanceNoSaves = .error derefMsg ∧
    clusterioTransform (fun _ => true) exInstanceNoSaves = .error derefMsg :=
  (transforms_require_saves (fun _ => true) exInstanceNoSaves rfl).1 rfl

/-!  ## C8: the lazy walker -/

theorem container_or_file (n : JNode) : isContainer n = true ∨ isFileLike n = true := by
  cases n <;> simp [isContainer, isFileLike]

theorem walkFiles_mono (t : JNode → Option JNode) :
    ∀ (f : Nat) (s : List JNode) (out : List JNode) (f2 : Nat), f ≤ f2 →
      walkFiles t f s = some out → walkFiles t f2 s = some out := by
  intro f
  induction f with
  | zero =>
    intro s out f2 _ h
    cases s with
    | nil =>
      simp only [walkFiles] at h
      obtain rfl : ([] : List JNode) = out := Option.some.inj h
      cases f2 <;> rfl
    | cons n stack => exact absurd h (by simp [walkFiles])
  | succ f ih =>
    intro s out f2 hle h
    cases s with
    | nil =>
      simp only [walkFiles] at h
      obtain rfl : ([] : List JNode) = out := Option.some.inj h
      cases f2 <;> rfl
    | cons n stack =>
      cases f2 with
      | zero => omega
      | succ f2b =>
        have hle2 : f ≤ f2b := by omega
        simp only [walkFiles] at h ⊢
        cases ht : t n with
        | none =>
          simp only [ht] at h ⊢
          exact ih _ _ _ hle2 h
        | some cur =>
          simp only [ht] at h ⊢
          by_cases hc : isContainer cur
          · rw [if_pos hc] at h ⊢
            exact ih _ _ _ hle2 h
          · rw [if_neg hc] at h ⊢
            by_cases hf : isFileLike cur
            · rw [if_pos hf] at h ⊢
              obtain ⟨out2, hout2, hcons⟩ := Option.map_eq_some'.mp h
              rw [ih _ _ _ hle2 hout2, Option.map_some']
              exact congrArg some hcons
            · rw [if_neg hf] at h ⊢
              exact ih _ _ _ hle2 h

theorem walkFiles_det (t : JNode → Option JNode) (s : List JNode) (f1 f2 : Nat)
    (o1 o2 : List JNode) (h1 : walkFiles t f1 s = some o1)
    (h2 : walkFiles t f2 s = some o2) : o1 = o2 := by
  have h1b := walkFiles_mono t f1 s o1 (max f1 f2) (le_max_left _ _) h1
  have h2b := walkFiles_mono t f2 s o2 (max f1 f2) (le_max_right _ _) h2
  exact Option.some.inj (h1b.symm.trans h2b)

theorem walk_mono (t : JNode → Option JNode) :
    ∀ F : Nat,
      (∀ n out F2, F ≤ F2 → walkFilesRec t F n = some out → walkFilesRec t F2 n = some out) ∧
      (∀ l out F2, F ≤ F2 → walkList t F l = some out → walkList t F2 l = some out) := by
  intro F
  induction F with
  | zero =>
    constructor
    · intro n out F2 _ h
      exact absurd h (by simp [walkFilesRec])
    · intro l out F2 hle h
      cases l with
      | nil =>
        simp only [walkList] at h ⊢
        exact h
      | cons n rest => exact absurd h (by simp [walkList, walkFilesRec])
  | succ f ih =>
    have recMono : ∀ n out F2, f + 1 ≤ F2 →
        walkFilesRec t (f + 1) n = some out → walkFilesRec t F2 n = some out := by
      intro n out F2 hle h
      cases F2 with
      | zero => omega
      | succ f2 =>
        have hf : f ≤ f2 := by omega
        simp only [walkFilesRec] at h ⊢
        cases ht : t n with
        | none => simp only [ht] at h ⊢; exact h
        | some cur =>
          simp only [ht] at h ⊢
          by_cases hc : isContainer cur
          · rw [if_pos hc] at h ⊢
            exact ih.2 _ _ _ hf h
          · rw [if_neg hc] at h ⊢
            exact h
    refine ⟨recMono, ?_⟩
    intro l
    induction l with
    | nil =>
      intro out F2 hle h
      simp only [walkList] at h ⊢
      exact h
    | cons n rest ihl =>
      intro out F2 hle h
      simp only [walkList] at h ⊢
      cases hr : walkFilesRec t (f + 1) n with
      | none =>
        simp only [hr] at h
        exact absurd h (by simp)
      | some o1 =>
        cases hl2 : walkList t (f + 1) rest with
        | none =>
          simp only [hr, hl2] at h
          exact absurd h (by simp)
        | some o2 =>
          simp only [hr, hl2] at h
          rw [recMono n o1 F2 hle hr, ihl o2 F2 hle hl2]
          exact h

theorem walkList_append_elim (t : JNode → Option JNode) (F : Nat) :
    ∀ (a b out : List JNode), walkList t F (a ++ b) = some out →
      ∃ o1 o2, out = o1 ++ o2 ∧ walkList t F a = some o1 ∧ walkList t F b = some o2 := by
  intro a
  induction a with
  | nil =>
    intro b out h
    refine ⟨[], out, rfl, ?_, by simpa using h⟩
    simp [walkList]
  | cons n a2 ih =>
    intro b out h
    simp only [List.cons_append, walkList] at h
    cases hr : walkFilesRec t F n with
    | none =>
      simp only [hr] at h
      exact absurd h (by simp)
    | some o1 =>
      cases hl : walkList t F (a2 ++ b) with
      | none =>
        simp only [hr, hl] at h
        exact absurd h (by simp)
      | some orest =>
        simp only [hr, hl] at h
        obtain rfl : o1 ++ orest = out := Option.some.inj h
        obtain ⟨oa, ob, rfl, ha, hb⟩ := ih b orest hl
        refine ⟨o1 ++ oa, ob, by rw [List.append_assoc], ?_, hb⟩
        simp only [walkList, hr, ha]

theorem walkFiles_append (t : JNode → Option JNode) :
    ∀ (f1 : Nat) (a o1 : List JNode) (f2 : Nat) (b o2 : List JNode),
      walkFiles t f1 a = some o1 → walkFiles t f2 b = some o2 →
      walkFiles t (f1 + f2) (a ++ b) = some (o1 ++ o2) := by
  intro f1
  induction f1 with
  | zero =>
    intro a o1 f2 b o2 h1 h2
    cases a with
    | nil =>
      simp only [walkFiles] at h1
      obtain rfl : ([] : List JNode) = o1 := Option.some.inj h1
      simpa using h2
    | cons n s => exact absurd h1 (by simp [walkFiles])
  | succ f ih =>
    intro a o1 f2 b o2 h1 h2
    cases a with
    | nil =>
      simp only [walkFiles] at h1
      obtain rfl : ([] : List JNode) = o1 := Option.some.inj h1
      simp only [List.nil_append]
      exact walkFiles_mono t f2 b o2 (f + 1 + f2) (by omega) h2
    | cons n a2 =>
      simp only [walkFiles] at h1
      have hstep : f + 1 + f2 = (f + f2) + 1 := by omega
      rw [hstep]
      simp only [List.cons_append, walkFiles]
      cases ht : t n with
      | none =>
        simp only [ht] at h1 ⊢
        exact ih a2 o1 f2 b o2 h1 h2
      | some cur =>
        simp only [ht] at h1 ⊢
        by_cases hc : isContainer cur
        · rw [if_pos hc] at h1 ⊢
          have hres := ih _ _ _ _ _ h1 h2
          rw [List.append_assoc] at hres
          exact hres
        · rw [if_neg hc] at h1 ⊢
          by_cases hfl : isFileLike cur
          · rw [if_pos hfl] at h1 ⊢
            obtain ⟨o1b, ho1b, hcons⟩ := Option.map_eq_some'.mp h1
            have hres : walkFiles t (f + f2) (a2 ++ b) = some (o1b ++ o2) :=
              ih _ _ _ _ _ ho1b h2
            show Option.map (fun out => cur :: out) (walkFiles t (f + f2) (a2 ++ b))
              = some (o1 ++ o2)
            rw [hres, Option.map_some', ← hcons]
            rfl
          · rw [if_neg hfl] at h1 ⊢
            exact ih _ _ _ _ _ h1 h2

theorem machine_to_spec (t : JNode → Option JNode) :
    ∀ (f : Nat) (s out : List JNode), walkFiles t f s = some out →
      ∃ F, walkList t F s = some out := by
  intro f
  induction f with
  | zero =>
    intro s out h
    cases s with
    | nil =>
      simp only [walkFiles] at h
      obtain rfl : ([] : List JNode) = out := Option.some.inj h
      exact ⟨0, by simp [walkList]⟩
    | cons n s2 => exact absurd h (by simp [walkFiles])
  | succ f ih =>
    intro s out h
    cases s with
    | nil =>
      simp only [walkFiles] at h
      obtain rfl : ([] : List JNode) = out := Option.some.inj h
      exact ⟨0, by simp [walkList]⟩
    | cons n stack =>
      simp only [walkFiles] at h
      cases ht : t n with
      | none =>
        simp only [ht] at h
        obtain ⟨F, hF⟩ := ih _ _ h
        refine ⟨F + 1, ?_⟩
        have hrec : walkFilesRec t (F + 1) n = some [] := by
          simp only [walkFilesRec, ht]
        have hl := (walk_mono t F).2 stack out (F + 1) (by omega) hF
        simp [walkList, hrec, hl]
      | some cur =>
        simp only [ht] at h
        by_cases hc : isContainer cur
        · rw [if_pos hc] at h
          obtain ⟨F, hF⟩ := ih _ _ h
          obtain ⟨ochild, orest, rfl, h1, h2⟩ := walkList_append_elim t F _ _ _ hF
          refine ⟨F + 1, ?_⟩
          have hrec : walkFilesRec t (F + 1) n = some ochild := by
            simp only [walkFilesRec, ht, if_pos hc]
            exact h1
          have hl := (walk_mono t F).2 stack orest (F + 1) (by omega) h2
          simp [walkList, hrec, hl]
        · rw [if_neg hc] at h
          by_cases hfl : isFileLike cur
          · rw [if_pos hfl] at h
            obtain ⟨orest, horest, hcons⟩ := Option.map_eq_some'.mp h
            obtain ⟨F, hF⟩ := ih _ _ horest
            refine ⟨F + 1, ?_⟩
            have hrec : walkFilesRec t (F + 1) n = some [cur] := by
              simp only [walkFilesRec, ht, if_neg hc, if_pos hfl]
            have hl := (walk_mono t F).2 stack orest (F + 1) (by omega) hF
            simp only [walkList, hrec, hl]
            rw [← hcons]
            rfl
          · rw [if_neg hfl] at h
            obtain ⟨F, hF⟩ := ih _ _ h
            refine ⟨F + 1, ?_⟩
            have hrec : walkFilesRec t (F + 1) n = some [] := by
              simp only [walkFilesRec, ht, if_neg hc, if_neg hfl]
            have hl := (walk_mono t F).2 stack out (F + 1) (by omega) hF
            simp [walkList, hrec, hl]

theorem spec_to_machine (t : JNode → Option JNode) :
    ∀ (F : Nat) (l out : List JNode), walkList t F l = some out →
      ∃ f, walkFiles t f l = some out := by
  intro F
  induction F with
  | zero =>
    intro l out h
    cases l with
    | nil =>
      simp only [walkList] at h
      obtain rfl : ([] : List JNode) = out := Option.some.inj h
      exact ⟨0, rfl⟩
    | cons n rest => exact absurd h (by simp [walkList, walkFilesRec])
  | succ f ihF =>
    intro l
    induction l with
    | nil =>
      intro out h
      simp only [walkList] at h
      obtain rfl : ([] : List JNode) = out := Option.some.inj h
      exact ⟨0, rfl⟩
    | cons n rest ihl =>
      intro out h
      simp only [walkList] at h
      cases hr : walkFilesRec t (f + 1) n with
      | none =>
        simp only [hr] at h
        exact absurd h (by simp)
      | some o1 =>
        cases hl : walkList t (f + 1) rest with
        | none =>
          simp only [hr, hl] at h
          exact absurd h (by simp)
        | some o2 =>
          simp only [hr, hl] at h
          obtain rfl : o1 ++ o2 = out := Option.some.inj h
          obtain ⟨f2, hf2⟩ := ihl o2 hl
          simp only [walkFilesRec] at hr
          cases ht : t n with
          | none =>
            simp only [ht] at hr
            obtain rfl : ([] : List JNode) = o1 := Option.some.inj hr
            refine ⟨f2 + 1, ?_⟩
            simp only [walkFiles, ht]
            simpa using hf2
          | some cur =>
            simp only [ht] at hr
            by_cases hc : isContainer cur
            · rw [if_pos hc] at hr
              obtain ⟨fc, hfc⟩ := ihF (childNodes cur) o1 hr
              refine ⟨fc + f2 + 1, ?_⟩
              simp only [walkFiles, ht, if_pos hc]
              exact walkFiles_append t fc (childNodes cur) o1 f2 rest o2 hfc hf2
            · rw [if_neg hc] at hr
              by_cases hfl : isFileLike cur
              · rw [if_pos hfl] at hr
                obtain rfl : [cur] = o1 := Option.some.inj hr
                refine ⟨f2 + 1, ?_⟩
                simp only [walkFiles, ht, if_neg hc, if_pos hfl, hf2]
                rfl
              · rw [if_neg hfl] at hr
                obtain rfl : ([] : List JNode) = o1 := Option.some.inj hr
                refine ⟨f2 + 1, ?_⟩
                simp only [walkFiles, ht, if_neg hc, if_neg hfl]
                simpa using hf2

/-- C8: for every node transform, whenever the stack-based walker
terminates it yields exactly the sequence the spec's recursive
description produces — the file-like leaves of the transformed
subtree, in pre-order, depth-first, left-to-right, children in stored
insertion order, with the transform applied to every visited node
before recursion or yielding and a pruned node removing its entire
subtree — and conversely; moreover the walker is deterministic: any
two terminating runs over the same stack yield the same sequence. -/
theorem walkFiles_preorder_spec (t : JNode → Option JNode) :
    (∀ (n : JNode) (out : List JNode),
      (∃ f, walkFiles t f [n] = some out) ↔ (∃ F, walkFilesRec t F n = some out)) ∧
    (∀ (s : List JNode) (f1 f2 : Nat) (o1 o2 : List JNode),
      walkFiles t f1 s = some o1 → walkFiles t f2 s = some o2 → o1 = o2) := by
  constructor
  · intro n out
    constructor
    · rintro ⟨f, hf⟩
      obtain ⟨F, hF⟩ := machine_to_spec t f [n] out hf
      simp only [walkList] at hF
      cases hr : walkFilesRec t F n with
      | none =>
        simp only [hr] at hF
        exact absurd hF (by simp)
      | some o1 =>
        simp only [hr] at hF
        have h2 : o1 ++ [] = out := Option.some.inj hF
        rw [List.append_nil] at h2
        exact ⟨F, h2 ▸ hr⟩
    · rintro ⟨F, hF⟩
      apply spec_to_machine t F [n] out
      simp only [walkList, hF]
      rw [List.append_nil]
  · exact fun s f1 f2 o1 o2 h1 h2 => walkFiles_det t s f1 f2 o1 o2 h1 h2

/-- A small concrete tree for the C8 witness. -/
def exTreeFile : JNode := .file "a.txt" "/r/a.txt" ⟨5, 1⟩

def exTree : JNode :=
  .root {}
    (.cons "a.txt" exTreeFile
      (.cons "sub"
        (.dir "sub" "/r/sub" {} (.cons "b.txt" (.file "b.txt" "/r/sub/b.txt" ⟨6, 2⟩) .nil))
        .nil))

/-- Witness for C8: on a concrete two-file tree with the identity
transform the walker terminates with the pre-order file sequence, and
the spec-side recursive walk produces the same sequence. -/
theorem walkFiles_preorder_spec_witness :
    (∃ F, walkFilesRec (fun n => some n) F exTree
        = some [exTreeFile, JNode.file "b.txt" "/r/sub/b.txt" ⟨6, 2⟩]) ∧
    walkFiles (fun n => some n) 10 [exTree]
      = some [exTreeFile, JNode.file "b.txt" "/r/sub/b.txt" ⟨6, 2⟩] := by
  refine ⟨?_, rfl⟩
  exact ((walkFiles_preorder_spec (fun n => some n)).1 exTree _).mp ⟨10, rfl⟩

/-!  ## C2: metadata aggregation -/

theorem timeMin_undef_left (t : JsTime) : timeMin .undef t = t := by
  cases t <;> rfl

theorem timeMin_undef_right (t : JsTime) : timeMin t .undef = t := by
  cases t <;> rfl

theorem timeMax_undef_left (t : JsTime) : timeMax .undef t = t := by
  cases t <;> rfl

theorem timeMax_undef_right (t : JsTime) : timeMax t .undef = t := by
  cases t <;> rfl

theorem timeMin_assoc (a b c : JsTime) :
    timeMin (timeMin a b) c = timeMin a (timeMin b c) := by
  cases a <;> cases b <;> cases c <;> simp [timeMin, min_assoc]

theorem timeMax_assoc (a b c : JsTime) :
    timeMax (timeMax a b) c = timeMax a (timeMax b c) := by
  cases a <;> cases b <;> cases c <;> simp [timeMax, max_assoc]

theorem foldl_min_cons (ys : List Int) : ∀ (a y : Int),
    ys.foldl min (min a y) = min a (ys.foldl min y) := by
  induction ys with
  | nil => intro a y; rfl
  | cons z ys ih =>
    intro a y
    show ys.foldl min (min (min a y) z) = min a (List.foldl min (min y z) ys)
    rw [min_assoc, ih]

theorem foldl_max_cons (ys : List Int) : ∀ (a y : Int),
    ys.foldl max (max a y) = max a (ys.foldl max y) := by
  induction ys with
  | nil => intro a y; rfl
  | cons z ys ih =>
    intro a y
    show ys.foldl max (max (max a y) z) = max a (List.foldl max (max y z) ys)
    rw [max_assoc, ih]

theorem intMin?_append (xs ys : List Int) :
    toTime (intMin? (xs ++ ys)) = timeMin (toTime (intMin? xs)) (toTime (intMin? ys)) := by
  cases xs with
  | nil => rw [List.nil_append]; exact (timeMin_undef_left _).symm
  | cons x xs =>
    cases ys with
    | nil =>
      rw [List.append_nil]
      exact (timeMin_undef_right _).symm
    | cons y ys =>
      show toTime (some ((xs ++ y :: ys).foldl min x)) = _
      rw [List.foldl_append]
      show JsTime.val (List.foldl min (min (xs.foldl min x) y) ys)
        = timeMin (.val (xs.foldl min x)) (.val (ys.foldl min y))
      rw [foldl_min_cons]
      rfl

theorem intMax?_append (xs ys : List Int) :
    toTime (intMax? (xs ++ ys)) = timeMax (toTime (intMax? xs)) (toTime (intMax? ys)) := by
  cases xs with
  | nil => rw [List.nil_append]; exact (timeMax_undef_left _).symm
  | cons x xs =>
    cases ys with
    | nil =>
      rw [List.append_nil]
      exact (timeMax_undef_right _).symm
    | cons y ys =>
      show toTime (some ((xs ++ y :: ys).foldl max x)) = _
      rw [List.foldl_append]
      show JsTime.val (List.foldl max (max (xs.foldl max x) y) ys)
        = timeMax (.val (xs.foldl max x)) (.val (ys.foldl max y))
      rw [foldl_max_cons]
      rfl

/-- Pointwise merge of two aggregates: counts add, timestamps combine
by `timeMin`/`timeMax`. -/
def metaMerge (a b : MetaData) : MetaData :=
  { foldersCount := a.foldersCount + b.foldersCount
    filesCount := a.filesCount + b.filesCount
    totalSize := a.totalSize + b.totalSize
    createdAtMs := timeMin a.createdAtMs b.createdAtMs
    modifiedAtMs := timeMax a.modifiedAtMs b.modifiedAtMs }

/-- What one already-aggregated child adds to its parent's fields. -/
def childContribution (c : JNode) : MetaData :=
  { foldersCount := aggFolders c + (if isDirLike c then 1 else 0)
    filesCount := aggFiles c + (if isFileLike c then 1 else 0)
    totalSize := aggSize c
    createdAtMs := createdOf c
    modifiedAtMs := modifiedOf c }

theorem metaStep_eq (m : MetaData) (c : JNode) :
    metaStep m c = metaMerge m (childContribution c) := by
  simp only [metaStep, metaMerge, childContribution, MetaData.mk.injEq]
  refine ⟨by omega, by omega, trivial, trivial, trivial⟩

theorem metaMerge_init_left (m : MetaData) : metaMerge MetaData.init m = m := by
  cases m with
  | mk a b c d e =>
    simp only [metaMerge, MetaData.init, MetaData.mk.injEq]
    refine ⟨by simp, by simp, by simp, ?_, ?_⟩
    · exact timeMin_undef_left d
    · exact timeMax_undef_left e

theorem metaMerge_init_right (m : MetaData) : metaMerge m MetaData.init = m := by
  cases m with
  | mk a b c d e =>
    simp only [metaMerge, MetaData.init, MetaData.mk.injEq]
    refine ⟨by simp, by simp, by simp, ?_, ?_⟩
    · exact timeMin_undef_right d
    · exact timeMax_undef_right e

theorem metaMerge_assoc (a b c : MetaData) :
    metaMerge (metaMerge a b) c = metaMerge a (metaMerge b c) := by
  simp only [metaMerge, MetaData.mk.injEq]
  refine ⟨by omega, by omega, by omega, timeMin_assoc _ _ _, timeMax_assoc _ _ _⟩

theorem foldMetaList_acc (es : EntryList) : ∀ acc : MetaData,
    foldMetaList acc es = metaMerge acc (foldMetaList MetaData.init es) := by
  induction es using entryListInd with
  | hnil =>
    intro acc
    show acc = metaMerge acc MetaData.init
    exact (metaMerge_init_right acc).symm
  | hcons k c rest ih =>
    intro acc
    show (EntryList.cons k c rest).values.foldl metaStep acc = _
    simp only [EntryList.values, List.foldl_cons]
    have hl : rest.values.foldl metaStep (metaStep acc c) = foldMetaList (metaStep acc c) rest := rfl
    rw [hl, ih (metaStep acc c)]
    have hr : foldMetaList MetaData.init (.cons k c rest)
        = metaMerge (childContribution c) (foldMetaList MetaData.init rest) := by
      show (EntryList.cons k c rest).values.foldl metaStep MetaData.init = _
      simp only [EntryList.values, List.foldl_cons]
      have hl2 : rest.values.foldl metaStep (metaStep MetaData.init c)
          = foldMetaList (metaStep MetaData.init c) rest := rfl
      rw [hl2, ih (metaStep MetaData.init c), metaStep_eq, metaMerge_init_left]
    rw [hr, metaStep_eq, metaMerge_assoc]

theorem calc_pres (c : JNode) :
    isDirLike (calculateMeta c) = isDirLike c ∧
    isFileLike (calculateMeta c) = isFileLike c ∧
    isContainer (calculateMeta c) = isContainer c ∧
    leafSize (calculateMeta c) = leafSize c ∧
    createdValOf (calculateMeta c) = createdValOf c ∧
    modifiedValOf (calculateMeta c) = modifiedValOf c := by
  cases c <;>
    simp [calculateMeta, isDirLike, isFileLike, isContainer, leafSize, createdValOf,
      modifiedValOf, statOf?]

theorem container_leaf_trivial (n : JNode) (h : isContainer n = true) :
    leafSize n = 0 ∧ createdValOf n = none ∧ modifiedValOf n = none := by
  cases n <;>
    simp [isContainer, leafSize, createdValOf, modifiedValOf, statOf?] at h ⊢

theorem container_meta_read (n : JNode) (h : isContainer n = true) :
    aggFolders n = (metaOf n).foldersCount ∧ aggFiles n = (metaOf n).filesCount ∧
    aggSize n = (metaOf n).totalSize ∧ createdOf n = (metaOf n).createdAtMs ∧
    modifiedOf n = (metaOf n).modifiedAtMs := by
  cases n <;>
    simp [isContainer, aggFolders, aggFiles, aggSize, createdOf, modifiedOf, metaOf] at h ⊢

theorem calc_desc_inv :
    ∀ n : JNode,
      dirCountOf (descList (calculateMeta n)) = dirCountOf (descList n) ∧
      fileCountOf (descList (calculateMeta n)) = fileCountOf (descList n) ∧
      sizeSum (descList (calculateMeta n)) = sizeSum (descList n) ∧
      createdVals (descList (calculateMeta n)) = createdVals (descList n) ∧
      modifiedVals (descList (calculateMeta n)) = modifiedVals (descList n) := by
  refine jnodeInd _
    (fun es =>
      dirCountOf (entDesc (calcEntries es)) = dirCountOf (entDesc es) ∧
      fileCountOf (entDesc (calcEntries es)) = fileCountOf (entDesc es) ∧
      sizeSum (entDesc (calcEntries es)) = sizeSum (entDesc es) ∧
      createdVals (entDesc (calcEntries es)) = createdVals (entDesc es) ∧
      modifiedVals (entDesc (calcEntries es)) = modifiedVals (entDesc es))
    ?_ ?_ ?_ ?_ ?_ ?_ ?_ ?_ ?_
  · intro m es hQ
    simpa [calculateMeta, descList] using hQ
  · intro nm rp m es hQ
    simpa [calculateMeta, descList] using hQ
  · intro nm rp m es hQ
    simpa [calculateMeta, descList] using hQ
  · intro nm rp cfg m es hQ
    simpa [calculateMeta, descList] using hQ
  · intro nm rp m es hQ
    simpa [calculateMeta, descList] using hQ
  · intro nm rp st
    simp [calculateMeta, descList]
  · intro nm rp st c
    simp [calculateMeta, descList]
  · simp [calcEntries, entDesc]
  · intro k c rest hP hQ
    obtain ⟨hd1, hf1, hs1, hc1, hm1⟩ := hP
    obtain ⟨hd2, hf2, hs2, hc2, hm2⟩ := hQ
    obtain ⟨pd, pfl, pcont, plf, pcv, pmv⟩ := calc_pres c
    have he : entDesc (calcEntries (.cons k c rest))
        = calculateMeta c :: (descList (calculateMeta c) ++ entDesc (calcEntries rest)) := by
      simp [calcEntries, entDesc]
    have he2 : entDesc (EntryList.cons k c rest) = c :: (descList c ++ entDesc rest) := by
      simp [entDesc]
    refine ⟨?_, ?_, ?_, ?_, ?_⟩
    · rw [he, he2]
      simp only [dirCountOf, List.countP_cons, List.countP_append] at hd1 hd2 ⊢
      rw [pd]
      omega
    · rw [he, he2]
      simp only [fileCountOf, List.countP_cons, List.countP_append] at hf1 hf2 ⊢
      rw [pfl]
      omega
    · rw [he, he2]
      simp only [sizeSum, List.map_cons, List.map_append, List.sum_cons,
        List.sum_append] at hs1 hs2 ⊢
      rw [plf]
      omega
    · rw [he, he2]
      simp only [createdVals] at hc1 hc2 ⊢
      rw [List.filterMap_cons, List.filterMap_cons, List.filterMap_append,
        List.filterMap_append, pcv, hc1, hc2]
    · rw [he, he2]
      simp only [modifiedVals] at hm1 hm2 ⊢
      rw [List.filterMap_cons, List.filterMap_cons, List.filterMap_append,
        List.filterMap_append, pmv, hm1, hm2]

/-- The record a fully aggregated entry list folds to. -/
def specMeta (l : List JNode) : MetaData :=
  { foldersCount := dirCountOf l
    filesCount := fileCountOf l
    totalSize := sizeSum l
    createdAtMs := toTime (intMin? (createdVals l))
    modifiedAtMs := toTime (intMax? (modifiedVals l)) }

theorem calc_agg :
    ∀ n : JNode, freshNode n = true → nanFree n = true →
      aggFolders (calculateMeta n) = dirCountOf (descList n) ∧
      aggFiles (calculateMeta n) = fileCountOf (descList n) ∧
      aggSize (calculateMeta n) = sizeSum (n :: descList n) ∧
      createdOf (calculateMeta n) = toTime (intMin? (createdVals (n :: descList n))) ∧
      modifiedOf (calculateMeta n) = toTime (intMax? (modifiedVals (n :: descList n))) := by
  refine jnodeInd _
    (fun es => freshEntries es = true → nanFreeEntries es = true →
      foldMetaList MetaData.init (calcEntries es) = specMeta (entDesc es))
    ?_ ?_ ?_ ?_ ?_ ?_ ?_ ?_ ?_
  · intro m es hQ hf hn
    obtain ⟨rfl, hfes⟩ : m = MetaData.init ∧ freshEntries es = true := by
      simpa [freshNode, Bool.and_eq_true, decide_eq_true_eq] using hf
    have hfold := hQ hfes (by simpa [nanFree] using hn)
    refine ⟨?_, ?_, ?_, ?_, ?_⟩ <;>
      simp [calculateMeta, aggFolders, aggFiles, aggSize, createdOf, modifiedOf, metaOf,
        hfold, descList, specMeta, sizeSum, leafSize, statOf?, createdVals, modifiedVals,
        createdValOf, modifiedValOf, List.filterMap_cons]
  · intro nm rp m es hQ hf hn
    obtain ⟨rfl, hfes⟩ : m = MetaData.init ∧ freshEntries es = true := by
      simpa [freshNode, Bool.and_eq_true, decide_eq_true_eq] using hf
    have hfold := hQ hfes (by simpa [nanFree] using hn)
    refine ⟨?_, ?_, ?_, ?_, ?_⟩ <;>
      simp [calculateMeta, aggFolders, aggFiles, aggSize, createdOf, modifiedOf, metaOf,
        hfold, descList, specMeta, sizeSum, leafSize, statOf?, createdVals, modifiedVals,
        createdValOf, modifiedValOf, List.filterMap_cons]
  · intro nm rp m es hQ hf hn
    obtain ⟨rfl, hfes⟩ : m = MetaData.init ∧ freshEntries es = true := by
      simpa [freshNode, Bool.and_eq_true, decide_eq_true_eq] using hf
    have hfold := hQ hfes (by simpa [nanFree] using hn)
    refine ⟨?_, ?_, ?_, ?_, ?_⟩ <;>
      simp [calculateMeta, aggFolders, aggFiles, aggSize, createdOf, modifiedOf, metaOf,
        hfold, descList, specMeta, sizeSum, leafSize, statOf?, createdVals, modifiedVals,
        createdValOf, modifiedValOf, List.filterMap_cons]
  · intro nm rp cfg m es hQ hf hn
    obtain ⟨rfl, hfes⟩ : m = MetaData.init ∧ freshEntries es = true := by
      simpa [freshNode, Bool.and_eq_true, decide_eq_true_eq] using hf
    have hfold := hQ hfes (by simpa [nanFree] using hn)
    refine ⟨?_, ?_, ?_, ?_, ?_⟩ <;>
      simp [calculateMeta, aggFolders, aggFiles, aggSize, createdOf, modifiedOf, metaOf,
        hfold, descList, specMeta, sizeSum, leafSize, statOf?, createdVals, modifiedVals,
        createdValOf, modifiedValOf, List.filterMap_cons]
  · intro nm rp m es hQ hf hn
    obtain ⟨rfl, hfes⟩ : m = MetaData.init ∧ freshEntries es = true := by
      simpa [freshNode, Bool.and_eq_true, decide_eq_true_eq] using hf
    have hfold := hQ hfes (by simpa [nanFree] using hn)
    refine ⟨?_, ?_, ?_, ?_, ?_⟩ <;>
      simp [calculateMeta, aggFolders, aggFiles, aggSize, createdOf, modifiedOf, metaOf,
        hfold, descList, specMeta, sizeSum, leafSize, statOf?, createdVals, modifiedVals,
        createdValOf, modifiedValOf, List.filterMap_cons]
  · intro nm rp st _ _
    refine ⟨?_, ?_, ?_, ?_, ?_⟩ <;>
      simp [calculateMeta, aggFolders, aggFiles, aggSize, createdOf, modifiedOf, descList,
        dirCountOf, fileCountOf, sizeSum, leafSize, statOf?, createdVals, modifiedVals,
        createdValOf, modifiedValOf, intMin?, intMax?, toTime]
  · intro nm rp st c _ hn
    have hcn : c ≠ JsTime.nan := by
      simpa [nanFree, decide_eq_true_eq] using hn
    cases c with
    | undef =>
      refine ⟨?_, ?_, ?_, ?_, ?_⟩ <;>
        simp [calculateMeta, aggFolders, aggFiles, aggSize, createdOf, modifiedOf, descList,
          dirCountOf, fileCountOf, sizeSum, leafSize, statOf?, createdVals, modifiedVals,
          createdValOf, modifiedValOf, intMin?, intMax?, toTime]
    | nan => exact absurd rfl hcn
    | val v =>
      refine ⟨?_, ?_, ?_, ?_, ?_⟩ <;>
        simp [calculateMeta, aggFolders, aggFiles, aggSize, createdOf, modifiedOf, descList,
          dirCountOf, fileCountOf, sizeSum, leafSize, statOf?, createdVals, modifiedVals,
          createdValOf, modifiedValOf, intMin?, intMax?, toTime]
  · intro _ _
    simp [calcEntries, foldMetaList, EntryList.values, entDesc, specMeta, dirCountOf,
      fileCountOf, sizeSum, createdVals, modifiedVals, intMin?, intMax?, toTime,
      MetaData.init]
  · intro k c rest hP hQ hf hn
    obtain ⟨hfc, hfrest⟩ : freshNode c = true ∧ freshEntries rest = true := by
      simpa [freshEntries, Bool.and_eq_true] using hf
    obtain ⟨hnc, hnrest⟩ : nanFree c = true ∧ nanFreeEntries rest = true := by
      simpa [nanFreeEntries, Bool.and_eq_true] using hn
    obtain ⟨pa, pf2, ps, pc2, pm2⟩ := hP hfc hnc
    have hQr := hQ hfrest hnrest
    obtain ⟨pd, pfl, pcont, plf, pcv, pmv⟩ := calc_pres c
    have hsplit : foldMetaList MetaData.init (calcEntries (.cons k c rest))
        = metaMerge (childContribution (calculateMeta c))
            (foldMetaList MetaData.init (calcEntries rest)) := by
      show (calcEntries (.cons k c rest)).values.foldl metaStep MetaData.init = _
      simp only [calcEntries, EntryList.values, List.foldl_cons]
      have hlift : (calcEntries rest).values.foldl metaStep
            (metaStep MetaData.init (calculateMeta c))
          = foldMetaList (metaStep MetaData.init (calculateMeta c)) (calcEntries rest) := rfl
      rw [hlift, foldMetaList_acc, metaStep_eq, metaMerge_init_left]
    rw [hsplit, hQr]
    have he2 : entDesc (EntryList.cons k c rest) = c :: (descList c ++ entDesc rest) := by
      simp [entDesc]
    have hcv : createdVals ((c :: descList c) ++ entDesc rest)
        = createdVals (c :: descList c) ++ createdVals (entDesc rest) := by
      simp only [createdVals, List.cons_append, List.filterMap_cons, List.filterMap_append]
      cases createdValOf c <;> simp
    have hmv : modifiedVals ((c :: descList c) ++ entDesc rest)
        = modifiedVals (c :: descList c) ++ modifiedVals (entDesc rest) := by
      simp only [modifiedVals, List.cons_append, List.filterMap_cons, List.filterMap_append]
      cases modifiedValOf c <;> simp
    simp only [metaMerge, childContribution, specMeta, MetaData.mk.injEq]
    refine ⟨?_, ?_, ?_, ?_, ?_⟩
    · rw [pa, pd, he2]
      simp only [dirCountOf, List.countP_cons, List.countP_append]
      omega
    · rw [pf2, pfl, he2]
      simp only [fileCountOf, List.countP_cons, List.countP_append]
      omega
    · rw [ps, he2]
      simp only [sizeSum, List.map_cons, List.map_append, List.sum_cons, List.sum_append]
      omega
    · rw [pc2, he2, ← List.cons_append, hcv, intMin?_append]
    · rw [pm2, he2, ← List.cons_append, hmv, intMax?_append]

theorem calc_root_agrees (n : JNode) (hf : freshNode n = true) (hn : nanFree n = true)
    (hc : isContainer n = true) :
    (metaOf (calculateMeta n)).foldersCount = dirCountOf (descList (calculateMeta n)) ∧
    (metaOf (calculateMeta n)).filesCount = fileCountOf (descList (calculateMeta n)) ∧
    (metaOf (calculateMeta n)).totalSize = sizeSum (descList (calculateMeta n)) ∧
    (metaOf (calculateMeta n)).createdAtMs
      = toTime (intMin? (createdVals (descList (calculateMeta n)))) ∧
    (metaOf (calculateMeta n)).modifiedAtMs
      = toTime (intMax? (modifiedVals (descList (calculateMeta n)))) := by
  obtain ⟨pa, pf2, ps, pc2, pm2⟩ := calc_agg n hf hn
  obtain ⟨pd, pfl, pcont, plf, pcv, pmv⟩ := calc_pres n
  obtain ⟨hd2, hfl2, hsz2, hcv2, hmv2⟩ := calc_desc_inv n
  have hc2 : isContainer (calculateMeta n) = true := by rw [pcont]; exact hc
  obtain ⟨q1, q2, q3, q4, q5⟩ := container_meta_read (calculateMeta n) hc2
  obtain ⟨z1, z2, z3⟩ := container_leaf_trivial n hc
  refine ⟨?_, ?_, ?_, ?_, ?_⟩
  · rw [← q1, pa, hd2]
  · rw [← q2, pf2, hfl2]
  · rw [← q3, ps]
    have hs : sizeSum (n :: descList n) = leafSize n + sizeSum (descList n) := by
      simp [sizeSum]
    rw [hs, z1, hsz2]
    omega
  · rw [← q4, pc2]
    have hcv : createdVals (n :: descList n) = createdVals (descList n) := by
      simp [createdVals, List.filterMap_cons, z2]
    rw [hcv, hcv2]
  · rw [← q5, pm2]
    have hmv : modifiedVals (n :: descList n) = modifiedVals (descList n) := by
      simp [modifiedVals, List.filterMap_cons, z3]
    rw [hmv, hmv2]

theorem calc_deep :
    ∀ n : JNode, freshNode n = true → nanFree n = true →
      ∀ d : JNode, d = calculateMeta n ∨ d ∈ descList (calculateMeta n) →
        isContainer d = true →
        (metaOf d).foldersCount = dirCountOf (descList d) ∧
        (metaOf d).filesCount = fileCountOf (descList d) ∧
        (metaOf d).totalSize = sizeSum (descList d) ∧
        (metaOf d).createdAtMs = toTime (intMin? (createdVals (descList d))) ∧
        (metaOf d).modifiedAtMs = toTime (intMax? (modifiedVals (descList d))) := by
  refine jnodeInd _
    (fun es => freshEntries es = true → nanFreeEntries es = true →
      ∀ d : JNode, d ∈ entDesc (calcEntries es) → isContainer d = true →
        (metaOf d).foldersCount = dirCountOf (descList d) ∧
        (metaOf d).filesCount = fileCountOf (descList d) ∧
        (metaOf d).totalSize = sizeSum (descList d) ∧
        (metaOf d).createdAtMs = toTime (intMin? (createdVals (descList d))) ∧
        (metaOf d).modifiedAtMs = toTime (intMax? (modifiedVals (descList d))))
    ?_ ?_ ?_ ?_ ?_ ?_ ?_ ?_ ?_
  · intro m es hQ hf hn d hd hc
    have hfes : freshEntries es = true := by
      have := hf; simp [freshNode, Bool.and_eq_true] at this; exact this.2
    have hnes : nanFreeEntries es = true := by simpa [nanFree] using hn
    rcases hd with rfl | hmem
    · exact calc_root_agrees _ hf hn rfl
    · have hdl : descList (calculateMeta (JNode.root m es)) = entDesc (calcEntries es) := by
        simp [calculateMeta, descList]
      exact hQ hfes hnes d (hdl ▸ hmem) hc
  · intro nm rp m es hQ hf hn d hd hc
    have hfes : freshEntries es = true := by
      have := hf; simp [freshNode, Bool.and_eq_true] at this; exact this.2
    have hnes : nanFreeEntries es = true := by simpa [nanFree] using hn
    rcases hd with rfl | hmem
    · exact calc_root_agrees _ hf hn rfl
    · have hdl : descList (calculateMeta (JNode.dir nm rp m es)) = entDesc (calcEntries es) := by
        simp [calculateMeta, descList]
      exact hQ hfes hnes d (hdl ▸ hmem) hc
  · intro nm rp m es hQ hf hn d hd hc
    have hfes : freshEntries es = true := by
      have := hf; simp [freshNode, Bool.and_eq_true] at this; exact this.2
    have hnes : nanFreeEntries es = true := by simpa [nanFree] using hn
    rcases hd with rfl | hmem
    · exact calc_root_agrees _ hf hn rfl
    · have hdl : descList (calculateMeta (JNode.instancesDir nm rp m es))
          = entDesc (calcEntries es) := by
        simp [calculateMeta, descList]
      exact hQ hfes hnes d (hdl ▸ hmem) hc
  · intro nm rp cfg m es hQ hf hn d hd hc
    have hfes : freshEntries es = true := by
      have := hf; simp [freshNode, Bool.and_eq_true] at this; exact this.2
    have hnes : nanFreeEntries es = true := by simpa [nanFree] using hn
    rcases hd with rfl | hmem
    · exact calc_root_agrees _ hf hn rfl
    · have hdl : descList (calculateMeta (JNode.inst nm rp cfg m es))
          = entDesc (calcEntries es) := by
        simp [calculateMeta, descList]
      exact hQ hfes hnes d (hdl ▸ hmem) hc
  · intro nm rp m es hQ hf hn d hd hc
    have hfes : freshEntries es = true := by
      have := hf; simp [freshNode, Bool.and_eq_true] at this; exact this.2
    have hnes : nanFreeEntries es = true := by simpa [nanFree] using hn
    rcases hd with rfl | hmem
    · exact calc_root_agrees _ hf hn rfl
    · have hdl : descList (calculateMeta (JNode.savesDir nm rp m es))
          = entDesc (calcEntries es) := by
        simp [calculateMeta, descList]
      exact hQ hfes hnes d (hdl ▸ hmem) hc
  · intro nm rp st _ _ d hd hc
    rcases hd with rfl | hmem
    · simp [calculateMeta, isContainer] at hc
    · simp [calculateMeta, descList] at hmem
  · intro nm rp st c _ _ d hd hc
    rcases hd with rfl | hmem
    · simp [calculateMeta, isContainer] at hc
    · simp [calculateMeta, descList] at hmem
  · intro _ _ d hd _
    simp [calcEntries, entDesc] at hd
  · intro k c rest hP hQ hf hn d hd hc
    obtain ⟨hfc, hfrest⟩ : freshNode c = true ∧ freshEntries rest = true := by
      simpa [freshEntries, Bool.and_eq_true] using hf
    obtain ⟨hnc, hnrest⟩ : nanFree c = true ∧ nanFreeEntries rest = true := by
      simpa [nanFreeEntries, Bool.and_eq_true] using hn
    have hsplit : entDesc (calcEntries (EntryList.cons k c rest))
        = calculateMeta c :: (descList (calculateMeta c) ++ entDesc (calcEntries rest)) := by
      simp [calcEntries, entDesc]
    rw [hsplit] at hd
    rcases List.mem_cons.mp hd with rfl | hmem
    · exact hP hfc hnc _ (Or.inl rfl) hc
    · rcases List.mem_append.mp hmem with h1 | h2
      · exact hP hfc hnc d (Or.inr h1) hc
      · exact hQ hfrest hnrest d h2 hc

/-- C2: after `calculateMeta` has run on a freshly built tree (exactly
what `buildTree` produces before calling it), every container node of
the resulting tree has `foldersCount` equal to its number of directory
descendants, `filesCount` equal to its number of File/Save descendants,
`totalSize` equal to the sum of `stat.size` over its File/Save
descendants, `createdAtMs` equal to the minimum creation timestamp
defined by a descendant (absent when none defines one) and
`modifiedAtMs` equal to the corresponding maximum. -/
theorem calculateMeta_spec (t d : JNode)
    (hf : freshNode t = true) (hn : nanFree t = true)
    (hd : d = calculateMeta t ∨ d ∈ descList (calculateMeta t))
    (hc : isContainer d = true) :
    (metaOf d).foldersCount = dirCountOf (descList d) ∧
    (metaOf d).filesCount = fileCountOf (descList d) ∧
    (metaOf d).totalSize = sizeSum (descList d) ∧
    (metaOf d).createdAtMs = toTime (intMin? (createdVals (descList d))) ∧
    (metaOf d).modifiedAtMs = toTime (intMax? (modifiedVals (descList d))) :=
  calc_deep t hf hn d hd hc

/-- Concrete freshly built tree for the C2 witness: a root holding one
directory with one plain file (5 bytes) and one save (7 bytes, created
at epoch+100ms). -/
def exMetaTree : JNode :=
  .root MetaData.init (.cons "d"
    (.dir "d" "/d" MetaData.init
      (.cons "f" (.file "f" "/d/f" ⟨5, 50⟩)
        (.cons "s" (.save "s" "/d/s" ⟨7, 70⟩ (.val 100)) .nil)))
    .nil)

theorem calculateMeta_spec_witness :
    freshNode exMetaTree = true ∧ nanFree exMetaTree = true ∧
    isContainer (calculateMeta exMetaTree) = true ∧
    (metaOf (calculateMeta exMetaTree)).totalSize
      = sizeSum (descList (calculateMeta exMetaTree)) ∧
    (metaOf (calculateMeta exMetaTree)).createdAtMs
      = toTime (intMin? (createdVals (descList (calculateMeta exMetaTree)))) := by
  have hf : freshNode exMetaTree = true := by
    simp [exMetaTree, freshNode, freshEntries]
  have hn : nanFree exMetaTree = true := by
    simp [exMetaTree, nanFree, nanFreeEntries]
  have hc : isContainer (calculateMeta exMetaTree) = true := by
    simp [exMetaTree, calculateMeta, isContainer]
  have h := calculateMeta_spec exMetaTree (calculateMeta exMetaTree) hf hn (Or.inl rfl) hc
  exact ⟨hf, hn, hc, h.2.2.1, h.2.2.2.1⟩

end Archive
